import Mathlib

/-!
Verification of the log-structured key-value store in `src/kvstore.rs`,
the thread pool in `src/thread_pool.rs`, and the TCP server loop in
`src/bin/kvs-server.rs` of the pna-rs repository.

The Rust code is shallowly embedded: the on-disk directory becomes an
association list from generation number to file content (a list of log
records), the `crossbeam_skiplist::SkipMap` index becomes an association
list from key to `CommandOffset`, byte offsets are `Nat`s computed from
the serde_json encoded length of each record, and fallible operations
return an `Outcome` that distinguishes `Ok`, `Err`, and a Rust panic
(`unreachable!`).
-/

set_option autoImplicit false

namespace Kvs

/-! ## Log records (`enum Command` in kvstore.rs) -/

inductive Command where
  | set (key value : String)
  | remove (key : String)
deriving DecidableEq

/-- UTF-8 byte length of one character. -/
def utf8Len (c : Char) : Nat :=
  if c.toNat < 0x80 then 1
  else if c.toNat < 0x800 then 2
  else if c.toNat < 0x10000 then 3
  else 4

/-- Encoded length of one character inside a serde_json string literal:
`"` and `\` are escaped as two bytes, most control characters as
`\u00XX` (six bytes), the short-escape control characters as two bytes,
everything else is emitted as raw UTF-8. -/
def escLen (c : Char) : Nat :=
  if c = '"' ∨ c = '\\' then 2
  else if c.toNat < 0x20 then
    (if c = '\x08' ∨ c = '\x0c' ∨ c = '\n' ∨ c = '\r' ∨ c = '\t' then 2 else 6)
  else utf8Len c

/-- serde_json byte length of a string literal, including the two quotes. -/
def jsonStrLen (s : String) : Nat := 2 + (s.data.map escLen).sum

/-- Byte length of `serde_json::to_writer` output for a `Command`
(`json.len()` in kvstore.rs). `Set{k,v}` encodes as
a tagged object with 25 bytes of fixed syntax, `Remove{k}` with 19. -/
def encLen : Command → Nat
  | .set k v => 25 + jsonStrLen k + jsonStrLen v
  | .remove k => 19 + jsonStrLen k

/-- Total byte length of a log file holding the given record sequence. -/
def fileLen (f : List Command) : Nat := (f.map encLen).sum

/-- Result of pointing `serde_json::Deserializer::into_iter::<Command>().next()`
at a byte offset of a log file: a record starts exactly there (`found`),
the offset is strictly inside a record so decoding errors (`badBytes`),
or the offset is at or past end of file so the iterator yields `none`
(`atEnd`). -/
inductive DecodeResult where
  | found (c : Command)
  | badBytes
  | atEnd
deriving DecidableEq

def decodeAt : List Command → Nat → DecodeResult
  | [], _ => .atEnd
  | c :: rest, o =>
    if o = 0 then .found c
    else if o < encLen c then .badBytes
    else decodeAt rest (o - encLen c)

/-! ## Association-list helpers (files map and SkipMap index) -/

def alookup {α β : Type} [DecidableEq α] : List (α × β) → α → Option β
  | [], _ => none
  | p :: l, a => if p.1 = a then some p.2 else alookup l a

def ainsert {α β : Type} [DecidableEq α] : List (α × β) → α → β → List (α × β)
  | [], a, b => [(a, b)]
  | p :: l, a, b => if p.1 = a then (a, b) :: l else p :: ainsert l a b

def aremove {α β : Type} [DecidableEq α] : List (α × β) → α → List (α × β)
  | [], _ => []
  | p :: l, a => if p.1 = a then l else p :: aremove l a

def akeys {α β : Type} : List (α × β) → List α := List.map Prod.fst

/-! ## Errors and outcomes -/

/-- `KvsError` from result.rs; payload-carrying variants keep only the tag. -/
inductive KvsError where
  | keyNotFound
  | unmatchedEngine
  | serdeJson
  | stdIo
  | stdErrLog
  | sled
  | fromUtf8
  | clientError
deriving DecidableEq

/-- Result of running a piece of Rust code: a value, a returned `Err`,
or a panic (`unreachable!` / unwinding). -/
inductive Outcome (α : Type) where
  | ok (a : α)
  | err (e : KvsError)
  | panicked
deriving DecidableEq

def Outcome.isErr {α : Type} : Outcome α → Bool
  | .err _ => true
  | _ => false

def Outcome.isOk {α : Type} : Outcome α → Bool
  | .ok _ => true
  | _ => false

/-! ## Store state -/

/-- `struct CommandOffset` in kvstore.rs. -/
structure CommandOffset where
  generation : Nat
  offset : Nat
deriving DecidableEq

/-- The observable state of a `KvStore`: the directory of generation
files, the in-memory index, the writer cursor (`writer_offset`), and the
uncompacted-bytes counter (`uncompaction_size`). -/
structure KvState where
  files : List (Nat × List Command)
  index : List (String × CommandOffset)
  writerOffset : CommandOffset
  uncompactionSize : Nat
deriving DecidableEq

/-- `COMPACTION_THRESHOLD` in kvstore.rs. -/
def COMPACTION_THRESHOLD : Nat := 4 * 1024 * 1024

/-- `File::options().create(true).append(true).open(...)`: an existing
file keeps its content, a missing one is created empty. -/
def createFile (files : List (Nat × List Command)) (g : Nat) :
    List (Nat × List Command) :=
  match alookup files g with
  | some _ => files
  | none => files ++ [(g, [])]

/-- Appending one encoded record to the generation-`g` file. -/
def appendFile (files : List (Nat × List Command)) (g : Nat) (c : Command) :
    List (Nat × List Command) :=
  match alookup files g with
  | some f => ainsert files g (f ++ [c])
  | none => files ++ [(g, [c])]

/-- `fs::remove_file` on the generation-`g` file; errors when missing. -/
def deleteFile (files : List (Nat × List Command)) (g : Nat) :
    Outcome Unit × List (Nat × List Command) :=
  match alookup files g with
  | some _ => (.ok (), aremove files g)
  | none => (.err .stdIo, files)

/-- `KvStoreReader::get` (kvstore.rs:66-82): open the generation file
(`Err(StdIo)` when absent), seek to the offset, decode one record.
A decoded `Set` yields its value; a decode failure is returned as
`Err(SerdeJson)`; a decoded `Remove` and an exhausted iterator both hit
`unreachable!`, i.e. panic. -/
def readerGet (files : List (Nat × List Command)) (co : CommandOffset) :
    Outcome String :=
  match alookup files co.generation with
  | none => .err .stdIo
  | some f =>
    match decodeAt f co.offset with
    | .found (.set _ v) => .ok v
    | .found (.remove _) => .panicked
    | .badBytes => .err .serdeJson
    | .atEnd => .panicked

/-- `get` on files-plus-index components (`KvsEngine::get` for `KvStore`,
kvstore.rs:310-316): a key absent from the index is `Ok(None)`,
otherwise the reader dereferences the index entry. -/
def kvGetI (files : List (Nat × List Command))
    (index : List (String × CommandOffset)) (k : String) :
    Outcome (Option String) :=
  match alookup index k with
  | none => .ok none
  | some co =>
    match readerGet files co with
    | .ok v => .ok (some v)
    | .err e => .err e
    | .panicked => .panicked

def kvGet (s : KvState) (k : String) : Outcome (Option String) :=
  kvGetI s.files s.index k

/-! ## Compaction (`KvStoreWriter::compaction`, kvstore.rs:154-207) -/

/-- Accumulator of the compaction loop: the directory, the index, the
compaction cursor offset, and `to_delete_generations` (kept as an
insertion-ordered duplicate-free list standing in for the `HashSet`). -/
structure CompactAcc where
  files : List (Nat × List Command)
  index : List (String × CommandOffset)
  offset : Nat
  toDelete : List Nat
deriving DecidableEq

def dedupInsert (l : List Nat) (g : Nat) : List Nat :=
  if g ∈ l then l else l ++ [g]

/-- The `for pair in self.kv.iter()` loop of compaction, folded over the
snapshot of the index: record the source generation for deletion, read
the live value, append a fresh `Set` to generation `gc`, update the
index entry in place to `(gc, new_offset)`, advance the cursor. A read
failure aborts the loop (the `?` operator), leaving the state mutated so
far. -/
def compactLoop (gc : Nat) :
    List (String × CommandOffset) → CompactAcc → Outcome Unit × CompactAcc
  | [], acc => (.ok (), acc)
  | (k, co) :: rest, acc =>
    let acc1 : CompactAcc := { acc with toDelete := dedupInsert acc.toDelete co.generation }
    match readerGet acc1.files co with
    | .ok v =>
      let cmd := Command.set k v
      compactLoop gc rest
        { files := appendFile acc1.files gc cmd
          index := ainsert acc1.index k ⟨gc, acc1.offset⟩
          offset := acc1.offset + encLen cmd
          toDelete := acc1.toDelete }
    | .err e => (.err e, acc1)
    | .panicked => (.panicked, acc1)

/-- The deletion loop over `to_delete_generations`. -/
def delLoop : List Nat → List (Nat × List Command) →
    Outcome Unit × List (Nat × List Command)
  | [], files => (.ok (), files)
  | g :: rest, files =>
    match deleteFile files g with
    | (.ok _, files') => delLoop rest files'
    | (.err e, files') => (.err e, files')
    | (.panicked, files') => (.panicked, files')

/-- `KvStoreWriter::compaction`: pick `gc = writer generation + 1`,
create its file, rewrite every live index entry into it, delete the
source generations, then switch the writer to generation `gc + 1` at
offset 0 and reset the uncompacted-bytes counter. On an error the
partially mutated state is kept and the cursor and counter are left
unchanged. -/
def compaction (s : KvState) : Outcome Unit × KvState :=
  let gc := s.writerOffset.generation + 1
  let acc0 : CompactAcc :=
    { files := createFile s.files gc, index := s.index, offset := 0, toDelete := [] }
  match compactLoop gc s.index acc0 with
  | (.ok _, acc) =>
    match delLoop acc.toDelete acc.files with
    | (.ok _, files2) =>
      (.ok (), { files := createFile files2 (gc + 1)
                 index := acc.index
                 writerOffset := ⟨gc + 1, 0⟩
                 uncompactionSize := 0 })
    | (.err e, files2) => (.err e, { s with files := files2, index := acc.index })
    | (.panicked, files2) => (.panicked, { s with files := files2, index := acc.index })
  | (.err e, acc) => (.err e, { s with files := acc.files, index := acc.index })
  | (.panicked, acc) => (.panicked, { s with files := acc.files, index := acc.index })

/-! ## Writer operations (`KvStoreWriter::set` / `remove`) -/

/-- State after the unconditional part of `KvStoreWriter::set`
(kvstore.rs:104-119): append the encoded `Set`, insert
`key ↦ writer_offset` (the pre-advance cursor), advance the cursor by
the encoded length and add the same length to the counter. -/
def setPre (s : KvState) (k v : String) : KvState :=
  let cmd := Command.set k v
  { files := appendFile s.files s.writerOffset.generation cmd
    index := ainsert s.index k s.writerOffset
    writerOffset := ⟨s.writerOffset.generation, s.writerOffset.offset + encLen cmd⟩
    uncompactionSize := s.uncompactionSize + encLen cmd }

/-- `KvStoreWriter::set` (kvstore.rs:104-125). -/
def writerSet (s : KvState) (k v : String) : Outcome Unit × KvState :=
  let s1 := setPre s k v
  if COMPACTION_THRESHOLD ≤ s1.uncompactionSize then compaction s1 else (.ok (), s1)

/-- State after the unconditional part of `KvStoreWriter::remove` on a
present key (kvstore.rs:132-146). -/
def removePre (s : KvState) (k : String) : KvState :=
  let cmd := Command.remove k
  { files := appendFile s.files s.writerOffset.generation cmd
    index := aremove s.index k
    writerOffset := ⟨s.writerOffset.generation, s.writerOffset.offset + encLen cmd⟩
    uncompactionSize := s.uncompactionSize + encLen cmd }

/-- `KvStoreWriter::remove` (kvstore.rs:127-152): a key absent from the
index fails with `KeyNotFound` before anything is written. -/
def writerRemove (s : KvState) (k : String) : Outcome Unit × KvState :=
  if (alookup s.index k).isNone then (.err .keyNotFound, s)
  else
    let s1 := removePre s k
    if COMPACTION_THRESHOLD ≤ s1.uncompactionSize then compaction s1 else (.ok (), s1)

def setState (s : KvState) (k v : String) : KvState := (writerSet s k v).2

def removeState (s : KvState) (k : String) : KvState := (writerRemove s k).2

/-! ## Recovery on open (`KvStore::open` / `load_command_file`) -/

/-- The record-replay loop of `KvStore::load_command_file`
(kvstore.rs:267-280): every `Set` inserts `key ↦ (g, record-start
offset)`, every `Remove` deletes the key, and the offset advances to the
deserializer's post-record byte offset. Returns the final offset (the
file's byte length) and the updated index. -/
def loadCmds (g : Nat) :
    List Command → Nat → List (String × CommandOffset) →
    Nat × List (String × CommandOffset)
  | [], off, idx => (off, idx)
  | c :: rest, off, idx =>
    loadCmds g rest (off + encLen c)
      (match c with
       | .set k _ => ainsert idx k ⟨g, off⟩
       | .remove k => aremove idx k)

def insSortedNat (g : Nat) : List Nat → List Nat
  | [] => [g]
  | x :: l => if g ≤ x then g :: x :: l else x :: insSortedNat g l

/-- `result.sort_unstable()` on the generation list. -/
def sortNat : List Nat → List Nat
  | [] => []
  | x :: l => insSortedNat x (sortNat l)

/-- `generations.iter().max().map_or(0, |x| x + 1)`. -/
def maxGenPlus (l : List Nat) : Nat := l.foldr (fun g acc => max (g + 1) acc) 0

/-- The per-generation replay loop of `KvStore::open` (kvstore.rs:238-240),
accumulating each file's byte count into the uncompacted counter. -/
def loadGens (dir : List (Nat × List Command)) :
    List Nat → List (String × CommandOffset) → Nat →
    List (String × CommandOffset) × Nat
  | [], idx, un => (idx, un)
  | g :: gens, idx, un =>
    let r := loadCmds g ((alookup dir g).getD []) 0 idx
    loadGens dir gens r.2 (un + r.1)

/-- `KvStore::open` (kvstore.rs:229-252) on a directory already parsed
into generation-numbered files: replay the generations in ascending
order, pick the writer generation `max + 1` (or 0) and create its file. -/
def openStore (dir : List (Nat × List Command)) : KvState :=
  let gens := sortNat (akeys dir)
  let gw := maxGenPlus (akeys dir)
  let r := loadGens dir gens [] 0
  { files := createFile dir gw
    index := r.1
    writerOffset := ⟨gw, 0⟩
    uncompactionSize := r.2 }

/-! ## The well-formedness invariant -/

/-- One index entry is sound: its generation's file exists and decoding
one record at its offset yields a `Set` whose key is the entry's key. -/
def entryOk (files : List (Nat × List Command)) (k : String)
    (co : CommandOffset) : Bool :=
  match alookup files co.generation with
  | none => false
  | some f =>
    match decodeAt f co.offset with
    | .found (.set k' _) => k' == k
    | _ => false

/-- The store invariant: duplicate-free file and index maps, every file
generation at most the writer generation, the writer file present with
length equal to the writer cursor offset, and every index entry sound
with generation at most the writer generation. -/
def wf (s : KvState) : Prop :=
  (akeys s.files).Nodup ∧
  (akeys s.index).Nodup ∧
  (∀ p ∈ s.files, p.1 ≤ s.writerOffset.generation) ∧
  (alookup s.files s.writerOffset.generation).map fileLen =
    some s.writerOffset.offset ∧
  (∀ p ∈ s.index,
    p.2.generation ≤ s.writerOffset.generation ∧ entryOk s.files p.1 p.2 = true)

instance (s : KvState) : Decidable (wf s) := by
  unfold wf; infer_instance

/-! ## File-name parsing at open (`KvStore::get_generations`) -/

/-- Characters after the last `.` of a file name, if any. -/
def extListAux : List Char → Option (List Char)
  | [] => none
  | c :: rest =>
    match extListAux rest with
    | some e => some e
    | none => if c = '.' then some rest else none

/-- Rust `Path::extension` on a bare file name: the part after the last
dot, where a leading dot belongs to the stem. -/
def rustExtension (s : String) : Option String :=
  match s.data with
  | [] => none
  | c :: rest =>
    if c = '.' then (extListAux rest).map (fun e => ⟨e⟩)
    else (extListAux (c :: rest)).map (fun e => ⟨e⟩)

/-- Strip every trailing `".json"` from the reversed character list. -/
def dropJsonRev : List Char → List Char
  | 'n' :: 'o' :: 's' :: 'j' :: '.' :: rest => dropJsonRev rest
  | cs => cs

/-- Rust `str::trim_end_matches(".json")`: repeatedly removes the
suffix `".json"`. -/
def trimEndMatchesJson (s : String) : String :=
  ⟨(dropJsonRev s.data.reverse).reverse⟩

/-- Rust `str::parse::<u64>`: an optional leading `+`, then one or more
ASCII digits, rejecting overflow past `u64::MAX`. -/
def parseU64 (s : String) : Option Nat :=
  let cs := match s.data with
    | '+' :: rest => rest
    | cs => cs
  if cs = [] then none
  else if cs.all Char.isDigit then
    let n := cs.foldl (fun acc c => acc * 10 + (c.toNat - 48)) 0
    if n < 2 ^ 64 then some n else none
  else none

/-- The per-file step of `KvStore::get_generations` (kvstore.rs:286-301):
keep files whose `extension()` is `json`, strip every trailing `".json"`
and parse the rest as a `u64`. -/
def jsonFileGen (name : String) : Option Nat :=
  if rustExtension name = some "json" then parseU64 (trimEndMatchesJson name)
  else none

/-- `KvStore::get_generations` over the directory's file names. -/
def getGenerations (names : List String) : List Nat :=
  sortNat (names.filterMap jsonFileGen)

/-- `convert_command_generation_path` (kvstore.rs:222-224), file-name
part: `format!("{generation}.json")`. -/
def commandFileName (g : Nat) : String := toString g ++ ".json"

/-- The replay loop of `KvStore::open` (kvstore.rs:238-240) over a
directory listed by file names: for each recognized generation `g` in
ascending order, `load_command_file` opens
`convert_command_generation_path(dir, g)` — the file named `<g>.json`
(kvstore.rs:260-263) — failing with an I/O error when that name is
absent, and otherwise folds its records into the index, accumulating
the file's byte count. -/
def loadGensNamed (dir : List (String × List Command)) :
    List Nat → List (String × CommandOffset) → Nat →
    Outcome (List (String × CommandOffset) × Nat)
  | [], idx, un => .ok (idx, un)
  | g :: gens, idx, un =>
    match alookup dir (commandFileName g) with
    | none => .err .stdIo
    | some f =>
      let r := loadCmds g f 0 idx
      loadGensNamed dir gens r.2 (un + r.1)

/-- The replay phase of `KvStore::open` on a directory listed by file
names: the generations recognized by `get_generations` (already
ascending) are replayed through `loadGensNamed`. The subsequent
writer-file creation (`KvStoreWriter::new`) is unreachable when replay
fails and does not read any existing file. -/
def openReplayNamed (dir : List (String × List Command)) :
    Outcome (List (String × CommandOffset) × Nat) :=
  loadGensNamed dir (getGenerations (akeys dir)) [] 0

/-! ## Sequences of engine mutations -/

/-- A mutation submitted through the engine facade: `set` or `remove`. -/
inductive KOp where
  | setOp (k v : String)
  | rmOp (k : String)
deriving DecidableEq

def opKey : KOp → String
  | .setOp k _ => k
  | .rmOp k => k

/-- Run one mutation, keeping the post-state (an erroring `remove`
leaves the state unchanged). -/
def stepOp (s : KvState) : KOp → KvState
  | .setOp k v => setState s k v
  | .rmOp k => removeState s k

def runOps (s : KvState) (ops : List KOp) : KvState := ops.foldl stepOp s

/-! ## Replay semantics (spec side, for the recovery claim) -/

/-- One record's effect on the visible value of key `k`: a later `Set`
of `k` overwrites, a later `Remove` of `k` deletes. -/
def lvStep (k : String) (acc : Option String) : Command → Option String
  | .set k' v => if k' = k then some v else acc
  | .remove k' => if k' = k then none else acc

/-- The spec-side reading of recovery ("later records in later
generations, and later within a generation, win"): the value of `k`
after folding a record history in order. -/
def lastValue (hist : List Command) (k : String) : Option String :=
  hist.foldl (lvStep k) none

/-- The full record history of a directory in ascending generation
order, the order in which `open` replays it. -/
def histAsc (dir : List (Nat × List Command)) : List Command :=
  ((sortNat (akeys dir)).map (fun g => (alookup dir g).getD [])).join

/-- Record history of a list of generations, in that order. -/
def histOf (dir : List (Nat × List Command)) (gens : List Nat) :
    List Command :=
  (gens.map (fun g => (alookup dir g).getD [])).join

/-! ## Proof-internal invariants -/

/-- Invariant carried through the `compactLoop` fold, relative to the
well-formed pre-compaction state `s`. `rem` is the part of the index
snapshot not yet processed. -/
def CInv (s : KvState) (acc : CompactAcc)
    (rem : List (String × CommandOffset)) : Prop :=
  (∃ gcf, alookup acc.files (s.writerOffset.generation + 1) = some gcf ∧
    fileLen gcf = acc.offset) ∧
  (∀ g, g ≠ s.writerOffset.generation + 1 →
    alookup acc.files g = alookup s.files g) ∧
  (akeys acc.index = akeys s.index) ∧
  (∀ k, kvGetI acc.files acc.index k = kvGetI s.files s.index k) ∧
  (∀ p ∈ acc.index,
    (p.1 ∈ akeys rem ∧ alookup s.index p.1 = some p.2) ∨
    (p.2.generation = s.writerOffset.generation + 1 ∧
      entryOk acc.files p.1 p.2 = true)) ∧
  (∀ p ∈ rem, alookup s.index p.1 = some p.2) ∧
  (∀ g ∈ acc.toDelete, g ≤ s.writerOffset.generation ∧
    (alookup s.files g).isSome = true) ∧
  acc.toDelete.Nodup ∧
  (akeys acc.files).Nodup ∧
  (∀ p ∈ acc.files, p.1 ≤ s.writerOffset.generation + 1)

/-- The invariant carried through recovery: the index built so far reads
back exactly `lastValue` of the records replayed so far, with every
entry sound against the (fixed) directory. -/
def LInv (dir : List (Nat × List Command))
    (idx : List (String × CommandOffset)) (hist : List Command) : Prop :=
  (akeys idx).Nodup ∧
  (∀ k, kvGetI dir idx k = .ok (lastValue hist k)) ∧
  (∀ p ∈ idx, entryOk dir p.1 p.2 = true)

/-! ## Thread pool (src/thread_pool.rs) -/

/-- State of the shared-queue pool: the pending FIFO queue (job ids),
the jobs workers have run so far (in dequeue order), and the live
worker count. -/
structure PoolState where
  queue : List Nat
  done : List Nat
  workers : Nat
deriving DecidableEq

/-- The respawn behaviour of `Drop for QueueReceiver`
(thread_pool.rs:43-52): at teardown one replacement worker is spawned
if and only if the thread is panicking. -/
def respawnCount (panicking : Bool) : Nat := if panicking then 1 else 0

/-- Worker count after one worker thread exits with panic status
`panicking`: the exiting thread is gone, and its receiver guard's
`Drop` respawns a worker on the same queue exactly when panicking. -/
def workersAfterExit (panicking : Bool) (w : Nat) : Nat :=
  (w - 1) + respawnCount panicking

/-- Events of the pool: `spawnJob` enqueues a job
(`SharedQueueThreadPool::spawn`), `runStep` lets one worker take and run
the queue's head job (a no-op when the queue is empty or no worker is
left). The parameter `p` tells which jobs panic. -/
inductive PoolEvent where
  | spawnJob (j : Nat)
  | runStep
deriving DecidableEq

def poolStep (p : Nat → Bool) (s : PoolState) : PoolEvent → PoolState
  | .spawnJob j => { s with queue := s.queue ++ [j] }
  | .runStep =>
    match s.queue with
    | [] => s
    | j :: rest =>
      if s.workers = 0 then s
      else { queue := rest, done := s.done ++ [j],
             workers := if p j then workersAfterExit true s.workers
                        else s.workers }

def poolRun (p : Nat → Bool) (s : PoolState) (evs : List PoolEvent) :
    PoolState :=
  evs.foldl (poolStep p) s

def spawnedJobs : List PoolEvent → List Nat
  | [] => []
  | .spawnJob j :: evs => j :: spawnedJobs evs
  | .runStep :: evs => spawnedJobs evs

/-! ## TCP server loop (src/bin/kvs-server.rs) -/

/-- `enum Request` in req_resp.rs. -/
inductive Request where
  | get (key : String)
  | set (key value : String)
  | rm (key : String)
deriving DecidableEq

/-- `struct Response` in req_resp.rs. -/
structure Response where
  value : Option String
  error : Option String
deriving DecidableEq

/-- One item of a connection's request stream as produced by the
serde_json request iterator: a well-decoded request or a codec
failure. -/
inductive ReqItem where
  | good (r : Request)
  | badBytes
deriving DecidableEq

/-- `Display` strings of `KvsError` (result.rs); payload-carrying
variants show their payload, abstracted here by a fixed tag. -/
def errString : KvsError → String
  | .keyNotFound => "Key not found"
  | .unmatchedEngine => "Unmatched engine"
  | .serdeJson => "serde_json error"
  | .stdIo => "io error"
  | .stdErrLog => "log error"
  | .sled => "sled error"
  | .fromUtf8 => "utf8 error"
  | .clientError => "Client error"

/-- One engine call made by `process` (kvs-server.rs:105-133): the
`Ok` payload that feeds the response, and the state change (only
`Set`/`Rm` mutate). -/
def engineStep (s : KvState) : Request → Outcome (Option String) × KvState
  | .get k => (kvGet s k, s)
  | .set k v =>
    match writerSet s k v with
    | (.ok _, s') => (.ok none, s')
    | (.err e, s') => (.err e, s')
    | (.panicked, s') => (.panicked, s')
  | .rm k =>
    match writerRemove s k with
    | (.ok _, s') => (.ok none, s')
    | (.err e, s') => (.err e, s')
    | (.panicked, s') => (.panicked, s')

/-- `process` (kvs-server.rs:95-143) on one connection: a codec error in
the request stream aborts the handler with `Err` (the `request?`), an
engine error is reported inside that request's response and the loop
continues; one response is emitted per processed request. -/
def processConn (s : KvState) :
    List ReqItem → Outcome Unit × List Response × KvState
  | [] => (.ok (), [], s)
  | .badBytes :: _ => (.err .serdeJson, [], s)
  | .good r :: rest =>
    match engineStep s r with
    | (.ok v, s') =>
      let t := processConn s' rest
      (t.1, ⟨v, none⟩ :: t.2.1, t.2.2)
    | (.err e, s') =>
      let t := processConn s' rest
      (t.1, ⟨none, some (errString e)⟩ :: t.2.1, t.2.2)
    | (.panicked, s') => (.panicked, [], s')

/-- `run_engine` (kvs-server.rs:84-93): connections are processed in
order, and a connection whose `process` call returns an error stops the
whole accept loop through the `?` operator; later connections are never
served. Returns the loop result, the responses emitted per served
connection, and the final store state. -/
def runEngine (s : KvState) :
    List (List ReqItem) → Outcome Unit × List (List Response) × KvState
  | [] => (.ok (), [], s)
  | conn :: rest =>
    match processConn s conn with
    | (.ok _, resps, s') =>
      let t := runEngine s' rest
      (t.1, resps :: t.2.1, t.2.2)
    | (.err e, resps, s') => (.err e, [resps], s')
    | (.panicked, resps, s') => (.panicked, [resps], s')

/-! ## Association-list lemmas -/

section AList

variable {α β : Type} [DecidableEq α]

theorem akeys_nil : akeys ([] : List (α × β)) = [] := rfl

theorem akeys_cons (p : α × β) (l : List (α × β)) :
    akeys (p :: l) = p.1 :: akeys l := rfl

theorem akeys_append (l m : List (α × β)) :
    akeys (l ++ m) = akeys l ++ akeys m := by
  simp [akeys]

theorem alookup_ainsert_self (l : List (α × β)) (a : α) (b : β) :
    alookup (ainsert l a b) a = some b := by
  induction l with
  | nil => simp [ainsert, alookup]
  | cons p l ih =>
    by_cases h : p.1 = a
    · simp [ainsert, h, alookup]
    · simp [ainsert, h, alookup, ih]

theorem alookup_ainsert_ne (l : List (α × β)) (a a' : α) (b : β) (h : a' ≠ a) :
    alookup (ainsert l a b) a' = alookup l a' := by
  induction l with
  | nil => simp [ainsert, alookup, Ne.symm h]
  | cons p l ih =>
    by_cases hp : p.1 = a
    · simp [ainsert, hp, alookup, Ne.symm h]
    · simp [ainsert, hp, alookup, ih]

theorem mem_ainsert (l : List (α × β)) (a : α) (b : β) (p : α × β)
    (h : p ∈ ainsert l a b) : p = (a, b) ∨ p ∈ l := by
  induction l with
  | nil => simpa [ainsert] using h
  | cons q l ih =>
    by_cases hq : q.1 = a
    · simp only [ainsert, hq, if_pos rfl] at h
      rcases List.mem_cons.1 h with h | h
      · exact Or.inl h
      · exact Or.inr (List.mem_cons_of_mem _ h)
    · simp only [ainsert, hq, if_neg hq] at h
      rcases List.mem_cons.1 h with h | h
      · exact Or.inr (h ▸ List.mem_cons_self _ _)
      · rcases ih h with h | h
        · exact Or.inl h
        · exact Or.inr (List.mem_cons_of_mem _ h)

theorem mem_aremove (l : List (α × β)) (a : α) (p : α × β)
    (h : p ∈ aremove l a) : p ∈ l := by
  induction l with
  | nil => simpa [aremove] using h
  | cons q l ih =>
    by_cases hq : q.1 = a
    · simp only [aremove, if_pos hq] at h
      exact List.mem_cons_of_mem _ h
    · simp only [aremove, if_neg hq] at h
      rcases List.mem_cons.1 h with h | h
      · exact h ▸ List.mem_cons_self _ _
      · exact List.mem_cons_of_mem _ (ih h)

theorem mem_akeys {l : List (α × β)} {a : α} :
    a ∈ akeys l ↔ ∃ b, (a, b) ∈ l := by
  constructor
  · intro h
    rcases List.mem_map.1 h with ⟨p, hp, hpa⟩
    exact ⟨p.2, by simpa [← hpa] using hp⟩
  · rintro ⟨b, hb⟩
    exact List.mem_map.2 ⟨(a, b), hb, rfl⟩

theorem alookup_eq_none {l : List (α × β)} {a : α} :
    alookup l a = none ↔ a ∉ akeys l := by
  induction l with
  | nil => simp [alookup, akeys]
  | cons p l ih =>
    by_cases hp : p.1 = a
    · simp [alookup, hp, akeys]
    · simp [alookup, hp, akeys, ih, Ne.symm hp]

theorem alookup_mem {l : List (α × β)} {a : α} {b : β}
    (h : alookup l a = some b) : (a, b) ∈ l := by
  induction l with
  | nil => simp [alookup] at h
  | cons p l ih =>
    by_cases hp : p.1 = a
    · rw [alookup, if_pos hp] at h
      injection h with h
      exact List.mem_cons.2 (Or.inl (show (a, b) = p by rw [← hp, ← h]))
    · rw [alookup, if_neg hp] at h
      exact List.mem_cons.2 (Or.inr (ih h))

theorem alookup_isSome {l : List (α × β)} {a : α} :
    (alookup l a).isSome = true ↔ a ∈ akeys l := by
  rcases h : alookup l a with _ | b
  · simpa using alookup_eq_none.1 h
  · simp only [Option.isSome_some, true_iff]
    exact mem_akeys.2 ⟨b, alookup_mem h⟩

theorem alookup_of_mem_nodup {l : List (α × β)} {a : α} {b : β}
    (hnd : (akeys l).Nodup) (h : (a, b) ∈ l) : alookup l a = some b := by
  induction l with
  | nil => simp at h
  | cons p l ih =>
    rw [akeys_cons, List.nodup_cons] at hnd
    rcases List.mem_cons.1 h with h | h
    · rw [← h]; simp [alookup]
    · have hpa : p.1 ≠ a := by
        intro hpa
        exact hnd.1 (hpa ▸ mem_akeys.2 ⟨b, h⟩)
      simp [alookup, hpa, ih hnd.2 h]

theorem akeys_ainsert_of_mem (l : List (α × β)) (a : α) (b : β)
    (h : a ∈ akeys l) : akeys (ainsert l a b) = akeys l := by
  induction l with
  | nil => simp [akeys] at h
  | cons p l ih =>
    by_cases hp : p.1 = a
    · simp [ainsert, hp, akeys_cons]
    · have h' : a ∈ akeys l := by
        rw [akeys_cons] at h
        rcases List.mem_cons.1 h with h | h
        · exact absurd h.symm hp
        · exact h
      rw [ainsert, if_neg hp, akeys_cons, akeys_cons, ih h']

theorem akeys_ainsert_of_not_mem (l : List (α × β)) (a : α) (b : β)
    (h : a ∉ akeys l) : akeys (ainsert l a b) = akeys l ++ [a] := by
  induction l with
  | nil => simp [ainsert, akeys]
  | cons p l ih =>
    have hp : p.1 ≠ a := fun hpa =>
      h (by rw [akeys_cons]; exact List.mem_cons.2 (Or.inl hpa.symm))
    have h' : a ∉ akeys l := fun hh =>
      h (by rw [akeys_cons]; exact List.mem_cons.2 (Or.inr hh))
    rw [ainsert, if_neg hp, akeys_cons, akeys_cons, ih h']
    rfl

theorem nodup_akeys_ainsert (l : List (α × β)) (a : α) (b : β)
    (hnd : (akeys l).Nodup) : (akeys (ainsert l a b)).Nodup := by
  by_cases h : a ∈ akeys l
  · rw [akeys_ainsert_of_mem l a b h]; exact hnd
  · rw [akeys_ainsert_of_not_mem l a b h]
    simpa [List.nodup_append] using ⟨hnd, fun hh => h hh⟩

theorem alookup_aremove_ne (l : List (α × β)) (a a' : α) (h : a' ≠ a) :
    alookup (aremove l a) a' = alookup l a' := by
  induction l with
  | nil => simp [aremove]
  | cons p l ih =>
    by_cases hp : p.1 = a
    · have hpa' : p.1 ≠ a' := by rw [hp]; exact Ne.symm h
      simp [aremove, hp, alookup, hpa', Ne.symm h]
    · simp [aremove, hp, alookup, ih]

theorem alookup_aremove_self (l : List (α × β)) (a : α)
    (hnd : (akeys l).Nodup) : alookup (aremove l a) a = none := by
  induction l with
  | nil => simp [aremove, alookup]
  | cons p l ih =>
    rw [akeys_cons, List.nodup_cons] at hnd
    by_cases hp : p.1 = a
    · simp only [aremove, if_pos hp]
      exact alookup_eq_none.2 fun hmem => hnd.1 (hp ▸ hmem)
    · simp [aremove, hp, alookup, ih hnd.2]

theorem nodup_akeys_aremove (l : List (α × β)) (a : α)
    (hnd : (akeys l).Nodup) : (akeys (aremove l a)).Nodup := by
  induction l with
  | nil => simpa [aremove] using hnd
  | cons p l ih =>
    rw [akeys_cons, List.nodup_cons] at hnd
    by_cases hp : p.1 = a
    · simpa [aremove, hp] using hnd.2
    · rw [aremove, if_neg hp, akeys_cons, List.nodup_cons]
      refine ⟨fun hmem => ?_, ih hnd.2⟩
      rcases mem_akeys.1 hmem with ⟨b, hb⟩
      exact hnd.1 (mem_akeys.2 ⟨b, mem_aremove l a _ hb⟩)

theorem mem_akeys_aremove (l : List (α × β)) (a a' : α)
    (h : a' ∈ akeys (aremove l a)) : a' ∈ akeys l := by
  rcases mem_akeys.1 h with ⟨b, hb⟩
  exact mem_akeys.2 ⟨b, mem_aremove l a _ hb⟩

theorem alookup_append_left {l m : List (α × β)} {a : α} {b : β}
    (h : alookup l a = some b) : alookup (l ++ m) a = some b := by
  induction l with
  | nil => simp [alookup] at h
  | cons p l ih =>
    by_cases hp : p.1 = a
    · simp_all [alookup]
    · simp_all [alookup]

theorem alookup_append_right {l m : List (α × β)} {a : α}
    (h : alookup l a = none) : alookup (l ++ m) a = alookup m a := by
  induction l with
  | nil => simp
  | cons p l ih =>
    by_cases hp : p.1 = a
    · simp [alookup, hp] at h
    · simp_all [alookup]

theorem mem_ainsert_key_eq {l : List (α × β)} {a : α} {b : β} {p : α × β}
    (hnd : (akeys l).Nodup) (hp : p ∈ ainsert l a b) (hk : p.1 = a) :
    p = (a, b) := by
  have h2 := alookup_of_mem_nodup (nodup_akeys_ainsert l a b hnd)
    (show (p.1, p.2) ∈ ainsert l a b by simpa using hp)
  rw [hk, alookup_ainsert_self] at h2
  injection h2 with h2
  calc p = (p.1, p.2) := rfl
    _ = (a, b) := by rw [hk, h2]

end AList

/-! ## Decoding lemmas -/

theorem encLen_pos (c : Command) : 0 < encLen c := by
  cases c <;> simp [encLen] <;> omega

theorem fileLen_nil : fileLen [] = 0 := rfl

theorem fileLen_cons (c : Command) (f : List Command) :
    fileLen (c :: f) = encLen c + fileLen f := by
  simp [fileLen]

theorem fileLen_append (f m : List Command) :
    fileLen (f ++ m) = fileLen f + fileLen m := by
  simp [fileLen]

theorem decodeAt_append (f m : List Command) (o : Nat) (c : Command)
    (h : decodeAt f o = .found c) : decodeAt (f ++ m) o = .found c := by
  induction f generalizing o with
  | nil => simp [decodeAt] at h
  | cons d f ih =>
    rw [List.cons_append, decodeAt]
    rw [decodeAt] at h
    by_cases h0 : o = 0
    · rw [if_pos h0] at h ⊢; exact h
    · rw [if_neg h0] at h ⊢
      by_cases h1 : o < encLen d
      · rw [if_pos h1] at h; exact DecodeResult.noConfusion h
      · rw [if_neg h1] at h ⊢; exact ih _ h

theorem decodeAt_boundary (pre : List Command) (c : Command) (suf : List Command) :
    decodeAt (pre ++ c :: suf) (fileLen pre) = .found c := by
  induction pre with
  | nil => simp [decodeAt, fileLen]
  | cons d pre ih =>
    rw [List.cons_append, decodeAt, fileLen_cons]
    have hd := encLen_pos d
    rw [if_neg (by omega), if_neg (by omega), Nat.add_sub_cancel_left]
    exact ih

theorem decodeAt_append_self (f : List Command) (c : Command) :
    decodeAt (f ++ [c]) (fileLen f) = .found c :=
  decodeAt_boundary f c []

/-! ## File-map lemmas -/

theorem lookup_createFile_self (files : List (Nat × List Command)) (g : Nat) :
    alookup (createFile files g) g = some ((alookup files g).getD []) := by
  rcases hg : alookup files g with _ | f
  · simp only [createFile, hg]
    rw [alookup_append_right hg]
    simp [alookup]
  · simp [createFile, hg]

theorem lookup_createFile_ne (files : List (Nat × List Command)) (g g' : Nat)
    (h : g' ≠ g) : alookup (createFile files g) g' = alookup files g' := by
  rcases hg : alookup files g with _ | f
  · simp only [createFile, hg]
    rcases hg' : alookup files g' with _ | f'
    · rw [alookup_append_right hg']
      simp [alookup, Ne.symm h]
    · rw [alookup_append_left hg']
  · simp [createFile, hg]

theorem mem_createFile (files : List (Nat × List Command)) (g : Nat)
    (p : Nat × List Command) (h : p ∈ createFile files g) :
    p ∈ files ∨ p = (g, []) := by
  rcases hg : alookup files g with _ | f
  · simp only [createFile, hg] at h
    rcases List.mem_append.1 h with h | h
    · exact Or.inl h
    · exact Or.inr (by simpa using h)
  · simp only [createFile, hg] at h
    exact Or.inl h

theorem nodup_akeys_singleton_append (files : List (Nat × List Command))
    (g : Nat) (f : List Command) (hnd : (akeys files).Nodup)
    (hg : g ∉ akeys files) : (akeys (files ++ [(g, f)])).Nodup := by
  rw [akeys_append]
  have he : akeys [(g, f)] = [g] := rfl
  rw [he, List.nodup_append]
  refine ⟨hnd, List.nodup_singleton g, ?_⟩
  intro a ha hb
  rw [List.mem_singleton] at hb
  exact hg (hb ▸ ha)

theorem nodup_akeys_createFile (files : List (Nat × List Command)) (g : Nat)
    (hnd : (akeys files).Nodup) : (akeys (createFile files g)).Nodup := by
  rcases hg : alookup files g with _ | f
  · simp only [createFile, hg]
    exact nodup_akeys_singleton_append files g [] hnd (alookup_eq_none.1 hg)
  · simpa [createFile, hg] using hnd

theorem lookup_appendFile_self (files : List (Nat × List Command)) (g : Nat)
    (c : Command) (f : List Command) (h : alookup files g = some f) :
    alookup (appendFile files g c) g = some (f ++ [c]) := by
  simp only [appendFile, h]
  exact alookup_ainsert_self files g (f ++ [c])

theorem lookup_appendFile_ne (files : List (Nat × List Command)) (g : Nat)
    (c : Command) (g' : Nat) (h : g' ≠ g) :
    alookup (appendFile files g c) g' = alookup files g' := by
  rcases hg : alookup files g with _ | f
  · simp only [appendFile, hg]
    rcases hg' : alookup files g' with _ | f'
    · rw [alookup_append_right hg']
      simp [alookup, Ne.symm h]
    · rw [alookup_append_left hg']
  · simp only [appendFile, hg]
    exact alookup_ainsert_ne files g g' (f ++ [c]) h

theorem forall_fst_appendFile (files : List (Nat × List Command)) (g : Nat)
    (c : Command) (P : Nat → Prop) (hall : ∀ p ∈ files, P p.1) (hg : P g) :
    ∀ p ∈ appendFile files g c, P p.1 := by
  intro p hp
  rcases hg' : alookup files g with _ | f
  · simp only [appendFile, hg'] at hp
    rcases List.mem_append.1 hp with h | h
    · exact hall p h
    · have : p = (g, [c]) := by simpa using h
      rw [this]; exact hg
  · simp only [appendFile, hg'] at hp
    rcases mem_ainsert files g (f ++ [c]) p hp with h | h
    · rw [h]; exact hg
    · exact hall p h

theorem nodup_akeys_appendFile (files : List (Nat × List Command)) (g : Nat)
    (c : Command) (hnd : (akeys files).Nodup) :
    (akeys (appendFile files g c)).Nodup := by
  rcases hg : alookup files g with _ | f
  · simp only [appendFile, hg]
    exact nodup_akeys_singleton_append files g [c] hnd (alookup_eq_none.1 hg)
  · simp only [appendFile, hg]
    exact nodup_akeys_ainsert files g (f ++ [c]) hnd

/-! ## Reader stability lemmas -/

theorem readerGet_of_entryOk (files : List (Nat × List Command)) (k : String)
    (co : CommandOffset) (h : entryOk files k co = true) :
    ∃ f v, alookup files co.generation = some f ∧
      decodeAt f co.offset = .found (.set k v) ∧ readerGet files co = .ok v := by
  rcases hf : alookup files co.generation with _ | f
  · simp [entryOk, hf] at h
  · rcases hd : decodeAt f co.offset with c | _ | _
    · rcases c with ⟨k', v⟩ | k'
      · simp only [entryOk, hf, hd] at h
        have : k' = k := by simpa using h
        subst this
        exact ⟨f, v, rfl, hd, by simp [readerGet, hf, hd]⟩
      · simp [entryOk, hf, hd] at h
    · simp [entryOk, hf, hd] at h
    · simp [entryOk, hf, hd] at h

theorem entryOk_intro (files : List (Nat × List Command)) (k v : String)
    (co : CommandOffset) (f : List Command)
    (hf : alookup files co.generation = some f)
    (hd : decodeAt f co.offset = .found (.set k v)) :
    entryOk files k co = true := by
  simp [entryOk, hf, hd]

theorem entryOk_appendFile (files : List (Nat × List Command)) (g : Nat)
    (c : Command) (k : String) (co : CommandOffset)
    (h : entryOk files k co = true) :
    entryOk (appendFile files g c) k co = true := by
  obtain ⟨f, v, hf, hd, _⟩ := readerGet_of_entryOk files k co h
  by_cases hg : co.generation = g
  · refine entryOk_intro _ k v co (f ++ [c]) ?_ (decodeAt_append f [c] _ _ hd)
    rw [hg]
    exact lookup_appendFile_self files g c f (hg ▸ hf)
  · exact entryOk_intro _ k v co f ((lookup_appendFile_ne files g c _ hg).trans hf) hd

theorem entryOk_createFile (files : List (Nat × List Command)) (g : Nat)
    (k : String) (co : CommandOffset) (h : entryOk files k co = true) :
    entryOk (createFile files g) k co = true := by
  obtain ⟨f, v, hf, hd, _⟩ := readerGet_of_entryOk files k co h
  by_cases hg : co.generation = g
  · have hf' : alookup files g = some f := hg ▸ hf
    refine entryOk_intro _ k v co f ?_ hd
    rw [hg, lookup_createFile_self, hf']
    rfl
  · exact entryOk_intro _ k v co f ((lookup_createFile_ne files g _ hg).trans hf) hd

theorem readerGet_appendFile (files : List (Nat × List Command)) (g : Nat)
    (c : Command) (co : CommandOffset) (v : String)
    (h : readerGet files co = .ok v) :
    readerGet (appendFile files g c) co = .ok v := by
  rcases hf : alookup files co.generation with _ | f
  · simp [readerGet, hf] at h
  · by_cases hg : co.generation = g
    · have hf' : alookup files g = some f := hg ▸ hf
      rcases hd : decodeAt f co.offset with d | _ | _
      · rcases d with ⟨k', v'⟩ | k'
        · simp only [readerGet, hf, hd] at h
          have happ := decodeAt_append f [c] co.offset _ hd
          simp only [readerGet, hg, lookup_appendFile_self files g c f hf', happ]
          exact h
        · simp [readerGet, hf, hd] at h
      · simp [readerGet, hf, hd] at h
      · simp [readerGet, hf, hd] at h
    · simp only [readerGet, lookup_appendFile_ne files g c _ hg, hf]
      simpa [readerGet, hf] using h

theorem readerGet_createFile (files : List (Nat × List Command)) (g : Nat)
    (co : CommandOffset) (v : String) (h : readerGet files co = .ok v) :
    readerGet (createFile files g) co = .ok v := by
  rcases hf : alookup files co.generation with _ | f
  · simp [readerGet, hf] at h
  · by_cases hg : co.generation = g
    · have hf' : alookup files g = some f := hg ▸ hf
      have hl : alookup (createFile files g) g = some f := by
        rw [lookup_createFile_self, hf']; rfl
      simp only [readerGet, hg, hl]
      simpa [readerGet, hf] using h
    · simp only [readerGet, lookup_createFile_ne files g _ hg, hf]
      simpa [readerGet, hf] using h

/-! ## Deletion loop -/

theorem delLoop_spec (td : List Nat) (files : List (Nat × List Command))
    (hnd : td.Nodup) (hall : ∀ g ∈ td, g ∈ akeys files)
    (hfnd : (akeys files).Nodup) :
    ∃ files', delLoop td files = (.ok (), files') ∧
      (∀ g', g' ∉ td → alookup files' g' = alookup files g') ∧
      (∀ p ∈ files', p ∈ files) ∧ (akeys files').Nodup := by
  induction td generalizing files with
  | nil => exact ⟨files, rfl, fun _ _ => rfl, fun _ hp => hp, hfnd⟩
  | cons g td ih =>
    rw [List.nodup_cons] at hnd
    have hg : g ∈ akeys files := hall g (List.mem_cons_self _ _)
    rcases hf : alookup files g with _ | f
    · exact absurd hg (alookup_eq_none.1 hf)
    obtain ⟨files', h1, h2, h3, h4⟩ := ih (aremove files g) hnd.2 (fun g' hg' => by
        have hne : g' ≠ g := fun hh => hnd.1 (hh ▸ hg')
        rcases mem_akeys.1 (hall g' (List.mem_cons_of_mem _ hg')) with ⟨f', hf'⟩
        have := alookup_of_mem_nodup hfnd hf'
        have : alookup (aremove files g) g' = some f' := by
          rw [alookup_aremove_ne files g g' hne]; exact this
        exact mem_akeys.2 ⟨f', alookup_mem this⟩)
      (nodup_akeys_aremove files g hfnd)
    refine ⟨files', ?_, ?_, ?_, h4⟩
    · simp only [delLoop, deleteFile, hf]
      exact h1
    · intro g' hg'
      have hne : g' ≠ g := fun hh => hg' (hh ▸ List.mem_cons_self _ _)
      have hnt : g' ∉ td := fun hh => hg' (List.mem_cons_of_mem _ hh)
      rw [h2 g' hnt, alookup_aremove_ne files g g' hne]
    · intro p hp
      exact mem_aremove files g p (h3 p hp)

/-! ## Small helper lemmas -/

theorem mem_dedupInsert (l : List Nat) (g a : Nat) :
    a ∈ dedupInsert l g ↔ a ∈ l ∨ a = g := by
  by_cases h : g ∈ l
  · simp only [dedupInsert, if_pos h]
    constructor
    · exact Or.inl
    · rintro (h' | rfl)
      · exact h'
      · exact h
  · simp [dedupInsert, if_neg h]

theorem nodup_dedupInsert (l : List Nat) (g : Nat) (h : l.Nodup) :
    (dedupInsert l g).Nodup := by
  by_cases hg : g ∈ l
  · simpa [dedupInsert, hg] using h
  · simp only [dedupInsert, if_neg hg]
    rw [List.nodup_append]
    exact ⟨h, List.nodup_singleton g, fun a ha hb =>
      hg (by rw [List.mem_singleton] at hb; exact hb ▸ ha)⟩

theorem readerGet_congr (files1 files2 : List (Nat × List Command))
    (co : CommandOffset)
    (h : alookup files1 co.generation = alookup files2 co.generation) :
    readerGet files1 co = readerGet files2 co := by
  unfold readerGet
  rw [h]

theorem entryOk_congr (files1 files2 : List (Nat × List Command)) (k : String)
    (co : CommandOffset)
    (h : alookup files1 co.generation = alookup files2 co.generation) :
    entryOk files1 k co = entryOk files2 k co := by
  unfold entryOk
  rw [h]

theorem kvGetI_lookup_congr (files : List (Nat × List Command))
    (idx1 idx2 : List (String × CommandOffset)) (k : String)
    (h : alookup idx1 k = alookup idx2 k) :
    kvGetI files idx1 k = kvGetI files idx2 k := by
  unfold kvGetI
  rw [h]

theorem kvGetI_none (files : List (Nat × List Command))
    (idx : List (String × CommandOffset)) (k : String)
    (h : alookup idx k = none) : kvGetI files idx k = .ok none := by
  simp [kvGetI, h]

theorem kvGetI_ok_readerGet (files : List (Nat × List Command))
    (idx : List (String × CommandOffset)) (k : String) (co : CommandOffset)
    (v : String) (hc : alookup idx k = some co)
    (h : kvGetI files idx k = .ok (some v)) : readerGet files co = .ok v := by
  simp only [kvGetI, hc] at h
  rcases hr : readerGet files co with w | e | _
  · rw [hr] at h
    simp at h
    rw [h]
  · rw [hr] at h; simp at h
  · rw [hr] at h; simp at h

/-- Every generation referenced by a well-formed state's files is at most
the writer generation, so the compaction generation is fresh. -/
theorem gc_not_mem_files (s : KvState) (hwf : wf s) :
    (s.writerOffset.generation + 1) ∉ akeys s.files := by
  intro hmem
  rcases mem_akeys.1 hmem with ⟨f, hf⟩
  have := hwf.2.2.1 _ hf
  omega

theorem wf_get_ok (s : KvState) (hwf : wf s) (k : String) (co : CommandOffset)
    (hc : alookup s.index k = some co) :
    ∃ v, readerGet s.files co = .ok v ∧ kvGet s k = .ok (some v) ∧
      co.generation ≤ s.writerOffset.generation := by
  have hmem := alookup_mem hc
  obtain ⟨hgen, hok⟩ := hwf.2.2.2.2 _ hmem
  obtain ⟨f, v, _, _, hr⟩ := readerGet_of_entryOk s.files k co hok
  exact ⟨v, hr, by simp [kvGet, kvGetI, hc, hr], hgen⟩

/-! ## The compaction-loop invariant -/

/-- The invariant holds at the start of the loop, for any way of
splitting the index snapshot into a processed-to-come part. -/
theorem CInv_init (s : KvState) (hwf : wf s) :
    CInv s ⟨createFile s.files (s.writerOffset.generation + 1), s.index, 0, []⟩
      s.index := by
  obtain ⟨hFnd, hInd, hBound, hWfile, hEnt⟩ := hwf
  have hfresh : alookup s.files (s.writerOffset.generation + 1) = none :=
    alookup_eq_none.2 (gc_not_mem_files s ⟨hFnd, hInd, hBound, hWfile, hEnt⟩)
  refine ⟨⟨[], ?_, rfl⟩, ?_, rfl, ?_, ?_, ?_, by simp, List.nodup_nil, ?_, ?_⟩
  · rw [lookup_createFile_self, hfresh]
    rfl
  · intro g hg
    exact lookup_createFile_ne s.files _ g hg
  · intro k
    rcases hc : alookup s.index k with _ | co
    · rw [kvGetI_none _ _ _ hc, kvGetI_none _ _ _ hc]
    · obtain ⟨v, hr, _, _⟩ := wf_get_ok s ⟨hFnd, hInd, hBound, hWfile, hEnt⟩ k co hc
      simp only [kvGetI, hc, hr, readerGet_createFile s.files _ co v hr]
  · intro p hp
    exact Or.inl ⟨mem_akeys.2 ⟨p.2, hp⟩, alookup_of_mem_nodup hInd hp⟩
  · intro p hp
    exact alookup_of_mem_nodup hInd hp
  · exact nodup_akeys_createFile s.files _ hFnd
  · intro p hp
    rcases mem_createFile s.files _ p hp with h | h
    · exact le_trans (hBound p h) (Nat.le_succ _)
    · rw [h]

/-- Running the compaction loop over the processed part preserves the
invariant: reading each live entry succeeds, the fresh `Set` lands at
the tail of the compaction file, and the index entry is updated in
place. -/
theorem compactLoop_inv (s : KvState) (hwf : wf s) :
    ∀ (rem1 rem2 : List (String × CommandOffset)) (acc : CompactAcc),
    CInv s acc (rem1 ++ rem2) →
    ∃ acc', compactLoop (s.writerOffset.generation + 1) rem1 acc =
      (.ok (), acc') ∧ CInv s acc' rem2 := by
  intro rem1
  induction rem1 with
  | nil => exact fun rem2 acc h => ⟨acc, rfl, h⟩
  | cons e rest ih =>
    rintro rem2 acc hinv
    obtain ⟨k, co⟩ := e
    obtain ⟨⟨gcf, hgcf, hlen⟩, hOld, hKeys, hGet, hEntries, hRem, hTd, hTdNd,
      hFNd, hFBound⟩ := hinv
    have hIndNd : (akeys acc.index).Nodup := hKeys ▸ hwf.2.1
    have hck : alookup s.index k = some co :=
      hRem (k, co) (List.mem_cons_self _ _)
    obtain ⟨v, hr, hkv, hgen⟩ := wf_get_ok s hwf k co hck
    have hgne : co.generation ≠ s.writerOffset.generation + 1 := by omega
    have hacc : readerGet acc.files co = .ok v :=
      (readerGet_congr acc.files s.files co (hOld _ hgne)).trans hr
    have hkmem : k ∈ akeys acc.index := by
      rw [hKeys]; exact mem_akeys.2 ⟨co, alookup_mem hck⟩
    set gc := s.writerOffset.generation + 1 with hgc
    set cmd := Command.set k v with hcmd
    set acc2 : CompactAcc :=
      { files := appendFile acc.files gc cmd
        index := ainsert acc.index k ⟨gc, acc.offset⟩
        offset := acc.offset + encLen cmd
        toDelete := dedupInsert acc.toDelete co.generation } with hacc2
    have hstep : compactLoop gc ((k, co) :: rest) acc = compactLoop gc rest acc2 := by
      simp only [compactLoop, hacc]
    have hinv2 : CInv s acc2 (rest ++ rem2) := by
      have hgcf2 : alookup acc2.files gc = some (gcf ++ [cmd]) :=
        lookup_appendFile_self acc.files gc cmd gcf hgcf
      refine ⟨⟨gcf ++ [cmd], hgcf2, ?_⟩, ?_, ?_, ?_, ?_, ?_, ?_, ?_, ?_, ?_⟩
      · simp only [hacc2, fileLen_append, hlen, fileLen_cons, fileLen_nil]
        omega
      · intro g hg
        exact (lookup_appendFile_ne acc.files gc cmd g hg).trans (hOld g hg)
      · exact (akeys_ainsert_of_mem acc.index k _ hkmem).trans hKeys
      · intro k'
        by_cases hk' : k' = k
        · subst hk'
          have hl : alookup acc2.index k' = some ⟨gc, acc.offset⟩ :=
            alookup_ainsert_self acc.index k' _
          have hdec : decodeAt (gcf ++ [cmd]) acc.offset = .found cmd := by
            rw [← hlen]; exact decodeAt_append_self gcf cmd
          have hrg : readerGet acc2.files ⟨gc, acc.offset⟩ = .ok v := by
            simp only [readerGet, hgcf2, hdec, hcmd]
          simp only [kvGetI, hl, hrg, hck, hr]
        · have hl : alookup acc2.index k' = alookup acc.index k' :=
            alookup_ainsert_ne acc.index k k' _ hk'
          rcases hc' : alookup acc.index k' with _ | co'
          · rw [kvGetI_none _ _ _ (hl.trans hc'), ← hGet k',
              kvGetI_none _ _ _ hc']
          · have hk'mem : k' ∈ akeys s.index := by
              rw [← hKeys]; exact mem_akeys.2 ⟨co', alookup_mem hc'⟩
            rcases hcs : alookup s.index k' with _ | co''
            · exact absurd (alookup_eq_none.1 hcs) (by simpa using hk'mem)
            obtain ⟨v'', _, hkv'', _⟩ := wf_get_ok s hwf k' co'' hcs
            have hgacc : kvGetI acc.files acc.index k' = .ok (some v'') :=
              (hGet k').trans (by rw [← hkv'']; rfl)
            have hracc : readerGet acc.files co' = .ok v'' :=
              kvGetI_ok_readerGet acc.files acc.index k' co' v'' hc' hgacc
            have hracc2 : readerGet acc2.files co' = .ok v'' :=
              readerGet_appendFile acc.files gc cmd co' v'' hracc
            rw [← hGet k']
            simp only [kvGetI, hl, hc', hracc, hracc2]
      · intro p hp
        by_cases hpk : p.1 = k
        · have := mem_ainsert_key_eq hIndNd hp hpk
          right
          rw [this]
          refine ⟨rfl, ?_⟩
          refine entryOk_intro acc2.files k v _ (gcf ++ [cmd]) hgcf2 ?_
          show decodeAt (gcf ++ [cmd]) acc.offset = .found (.set k v)
          rw [← hlen]; exact decodeAt_append_self gcf cmd
        · rcases mem_ainsert acc.index k _ p hp with h | h
          · exact absurd (by rw [h]) hpk
          · rcases hEntries p h with ⟨hmem, horig⟩ | ⟨hgen', hok⟩
            · left
              refine ⟨?_, horig⟩
              rw [akeys_append, akeys_cons] at hmem
              rw [akeys_append]
              rcases List.mem_append.1 hmem with h' | h'
              · rcases List.mem_cons.1 h' with h'' | h''
                · exact absurd h'' hpk
                · exact List.mem_append.2 (Or.inl h'')
              · exact List.mem_append.2 (Or.inr h')
            · exact Or.inr ⟨hgen',
                entryOk_appendFile acc.files gc cmd p.1 p.2 hok⟩
      · intro p hp
        exact hRem p (List.mem_cons_of_mem _ hp)
      · intro g hg
        rcases (mem_dedupInsert acc.toDelete co.generation g).1 hg with h | h
        · exact hTd g h
        · subst h
          refine ⟨hgen, ?_⟩
          obtain ⟨f, _, hf, _, _⟩ := readerGet_of_entryOk s.files k co
            (hwf.2.2.2.2 _ (alookup_mem hck)).2
          rw [hf]; rfl
      · exact nodup_dedupInsert acc.toDelete co.generation hTdNd
      · exact nodup_akeys_appendFile acc.files gc cmd hFNd
      · exact forall_fst_appendFile acc.files gc cmd (fun x => x ≤ gc)
          hFBound (le_refl gc)
    obtain ⟨acc', hloop, hres⟩ := ih rem2 acc2 hinv2
    exact ⟨acc', hstep.trans hloop, hres⟩

/-- Full specification of `KvStoreWriter::compaction` from a well-formed
state: it succeeds, preserves the key set and every `get` result,
rewrites every live index entry into generation `gw + 1`, and leaves the
writer at generation `gw + 2`, offset 0, with a zeroed counter. -/
theorem compaction_spec (s : KvState) (hwf : wf s) :
    ∃ s', compaction s = (.ok (), s') ∧ wf s' ∧
      akeys s'.index = akeys s.index ∧
      (∀ k, kvGet s' k = kvGet s k) ∧
      (∀ p ∈ s'.index, p.2.generation = s.writerOffset.generation + 1) ∧
      s'.writerOffset = ⟨s.writerOffset.generation + 2, 0⟩ ∧
      s'.uncompactionSize = 0 := by
  set gc := s.writerOffset.generation + 1 with hgc
  have hsplit : CInv s ⟨createFile s.files gc, s.index, 0, []⟩
      (s.index ++ []) := by
    simpa using CInv_init s hwf
  obtain ⟨acc', hloop, hfin⟩ := compactLoop_inv s hwf s.index [] _ hsplit
  obtain ⟨⟨gcf, hgcf, hlen⟩, hOld, hKeys, hGet, hEntries, _, hTd, hTdNd,
    hFNd, hFBound⟩ := hfin
  have hAll : ∀ p ∈ acc'.index,
      p.2.generation = gc ∧ entryOk acc'.files p.1 p.2 = true := by
    intro p hp
    rcases hEntries p hp with ⟨hmem, _⟩ | h
    · simp [akeys] at hmem
    · exact h
  have hallmem : ∀ g ∈ acc'.toDelete, g ∈ akeys acc'.files := by
    intro g hg
    obtain ⟨hle, hsome⟩ := hTd g hg
    have hne : g ≠ gc := by omega
    rw [← hOld g hne] at hsome
    exact alookup_isSome.1 hsome
  obtain ⟨files2, hdel, hdelLook, hdelMem, hdelNd⟩ :=
    delLoop_spec acc'.toDelete acc'.files hTdNd hallmem hFNd
  have hgcnotd : gc ∉ acc'.toDelete := fun hmem => by
    have := (hTd gc hmem).1; omega
  have hgc2 : alookup files2 gc = some gcf := (hdelLook gc hgcnotd).trans hgcf
  have hb2 : ∀ p ∈ files2, p.1 ≤ gc := fun p hp => hFBound p (hdelMem p hp)
  have hfresh2 : alookup files2 (gc + 1) = none :=
    alookup_eq_none.2 (fun hmem => by
      rcases mem_akeys.1 hmem with ⟨f, hf⟩
      have := hb2 _ hf; omega)
  have hlook3self : alookup (createFile files2 (gc + 1)) (gc + 1) = some [] := by
    rw [lookup_createFile_self, hfresh2]; rfl
  have hlook3gc : alookup (createFile files2 (gc + 1)) gc = some gcf := by
    rw [lookup_createFile_ne files2 (gc + 1) gc (by omega), hgc2]
  refine ⟨{ files := createFile files2 (gc + 1), index := acc'.index,
            writerOffset := ⟨gc + 1, 0⟩, uncompactionSize := 0 },
    ?_, ?_, hKeys, ?_, fun p hp => (hAll p hp).1, rfl, rfl⟩
  · simp only [compaction, hloop, hdel]
  · refine ⟨nodup_akeys_createFile files2 _ hdelNd, hKeys ▸ hwf.2.1, ?_, ?_, ?_⟩
    · intro p hp
      rcases mem_createFile files2 (gc + 1) p hp with h | h
      · exact le_trans (hb2 p h) (Nat.le_succ _)
      · rw [h]
    · show (alookup (createFile files2 (gc + 1)) (gc + 1)).map fileLen = some 0
      rw [hlook3self]; rfl
    · intro p hp
      refine ⟨by rw [(hAll p hp).1]; exact Nat.le_succ _, ?_⟩
      rw [entryOk_congr (createFile files2 (gc + 1)) acc'.files p.1 p.2
        (by rw [(hAll p hp).1, hlook3gc, hgcf])]
      exact (hAll p hp).2
  · intro k
    show kvGetI (createFile files2 (gc + 1)) acc'.index k =
      kvGetI s.files s.index k
    rcases hc : alookup acc'.index k with _ | co
    · rw [kvGetI_none _ _ _ hc, kvGetI_none _ _ _ (alookup_eq_none.2
        (fun hm => (alookup_eq_none.1 hc) (by rw [hKeys]; exact hm)))]
    · have hcg : alookup (createFile files2 (gc + 1)) co.generation =
          alookup acc'.files co.generation := by
        rw [(hAll _ (alookup_mem hc)).1, hlook3gc, hgcf]
      rw [← hGet k]
      simp only [kvGetI, hc,
        readerGet_congr (createFile files2 (gc + 1)) acc'.files co hcg]

/-! ## Writer operation specifications -/

theorem wf_writer_file (s : KvState) (hwf : wf s) :
    ∃ wfc, alookup s.files s.writerOffset.generation = some wfc ∧
      fileLen wfc = s.writerOffset.offset := by
  have h := hwf.2.2.2.1
  rcases hl : alookup s.files s.writerOffset.generation with _ | f
  · rw [hl] at h; cases h
  · rw [hl] at h
    exact ⟨f, rfl, by injection h⟩

theorem setPre_spec (s : KvState) (k v : String) (hwf : wf s) :
    wf (setPre s k v) ∧ kvGet (setPre s k v) k = .ok (some v) ∧
    (∀ k', k' ≠ k → kvGet (setPre s k v) k' = kvGet s k') ∧
    alookup (setPre s k v).index k = some s.writerOffset := by
  obtain ⟨wfc, hwfc, hwlen⟩ := wf_writer_file s hwf
  set gw := s.writerOffset.generation with hgw
  set cmd := Command.set k v with hcmd
  have hfl : alookup (appendFile s.files gw cmd) gw = some (wfc ++ [cmd]) :=
    lookup_appendFile_self s.files gw cmd wfc hwfc
  have hdec : decodeAt (wfc ++ [cmd]) s.writerOffset.offset = .found cmd := by
    rw [← hwlen]; exact decodeAt_append_self wfc cmd
  have hEok : entryOk (appendFile s.files gw cmd) k s.writerOffset = true := by
    refine entryOk_intro _ k v _ (wfc ++ [cmd]) hfl ?_
    rw [hcmd] at hdec
    exact hdec
  refine ⟨⟨?_, ?_, ?_, ?_, ?_⟩, ?_, ?_, alookup_ainsert_self s.index k _⟩
  · exact nodup_akeys_appendFile s.files gw cmd hwf.1
  · exact nodup_akeys_ainsert s.index k _ hwf.2.1
  · exact forall_fst_appendFile s.files gw cmd (fun x => x ≤ gw)
      hwf.2.2.1 (le_refl gw)
  · show (alookup (appendFile s.files gw cmd) gw).map fileLen =
      some (s.writerOffset.offset + encLen cmd)
    rw [hfl]
    simp [fileLen_append, hwlen, fileLen_cons, fileLen_nil]
  · intro p hp
    by_cases hpk : p.1 = k
    · have hknd : (akeys s.index).Nodup := hwf.2.1
      rw [mem_ainsert_key_eq hknd hp hpk]
      exact ⟨le_refl _, hEok⟩
    · rcases mem_ainsert s.index k _ p hp with h | h
      · exact absurd (by rw [h]) hpk
      · obtain ⟨hg, ho⟩ := hwf.2.2.2.2 p h
        exact ⟨hg, entryOk_appendFile s.files gw cmd p.1 p.2 ho⟩
  · have hrg : readerGet (appendFile s.files gw cmd) s.writerOffset = .ok v := by
      simp only [readerGet, hfl, hdec, hcmd]
    show kvGetI (appendFile s.files gw cmd) (ainsert s.index k s.writerOffset)
      k = .ok (some v)
    simp only [kvGetI, alookup_ainsert_self s.index k _, hrg]
  · intro k' hk'
    have hl : alookup (ainsert s.index k s.writerOffset) k' =
        alookup s.index k' := alookup_ainsert_ne s.index k k' _ hk'
    show kvGetI (appendFile s.files gw cmd) (ainsert s.index k s.writerOffset)
      k' = kvGet s k'
    rcases hc : alookup s.index k' with _ | co
    · rw [kvGetI_none _ _ _ (hl.trans hc), kvGet, kvGetI_none _ _ _ hc]
    · obtain ⟨v'', hr'', hkv'', _⟩ := wf_get_ok s hwf k' co hc
      rw [hkv'']
      simp only [kvGetI, hl.trans hc,
        readerGet_appendFile s.files gw cmd co v'' hr'']

theorem removePre_spec (s : KvState) (k : String) (co : CommandOffset)
    (hwf : wf s) (hc : alookup s.index k = some co) :
    wf (removePre s k) ∧ kvGet (removePre s k) k = .ok none ∧
    (∀ k', k' ≠ k → kvGet (removePre s k) k' = kvGet s k') ∧
    alookup (removePre s k).index k = none := by
  obtain ⟨wfc, hwfc, hwlen⟩ := wf_writer_file s hwf
  set gw := s.writerOffset.generation with hgw
  set cmd := Command.remove k with hcmd
  have hfl : alookup (appendFile s.files gw cmd) gw = some (wfc ++ [cmd]) :=
    lookup_appendFile_self s.files gw cmd wfc hwfc
  have hnone : alookup (aremove s.index k) k = none :=
    alookup_aremove_self s.index k hwf.2.1
  refine ⟨⟨?_, ?_, ?_, ?_, ?_⟩, ?_, ?_, hnone⟩
  · exact nodup_akeys_appendFile s.files gw cmd hwf.1
  · exact nodup_akeys_aremove s.index k hwf.2.1
  · exact forall_fst_appendFile s.files gw cmd (fun x => x ≤ gw)
      hwf.2.2.1 (le_refl gw)
  · show (alookup (appendFile s.files gw cmd) gw).map fileLen =
      some (s.writerOffset.offset + encLen cmd)
    rw [hfl]
    simp [fileLen_append, hwlen, fileLen_cons, fileLen_nil]
  · intro p hp
    obtain ⟨hg, ho⟩ := hwf.2.2.2.2 p (mem_aremove s.index k p hp)
    exact ⟨hg, entryOk_appendFile s.files gw cmd p.1 p.2 ho⟩
  · show kvGetI (appendFile s.files gw cmd) (aremove s.index k) k = .ok none
    exact kvGetI_none _ _ _ hnone
  · intro k' hk'
    have hl : alookup (aremove s.index k) k' = alookup s.index k' :=
      alookup_aremove_ne s.index k k' hk'
    show kvGetI (appendFile s.files gw cmd) (aremove s.index k) k' = kvGet s k'
    rcases hc' : alookup s.index k' with _ | co'
    · rw [kvGetI_none _ _ _ (hl.trans hc'), kvGet, kvGetI_none _ _ _ hc']
    · obtain ⟨v'', hr'', hkv'', _⟩ := wf_get_ok s hwf k' co' hc'
      rw [hkv'']
      simp only [kvGetI, hl.trans hc',
        readerGet_appendFile s.files gw cmd co' v'' hr'']

theorem writerSet_spec (s : KvState) (k v : String) (hwf : wf s) :
    (writerSet s k v).1 = .ok () ∧ wf (setState s k v) ∧
    kvGet (setState s k v) k = .ok (some v) ∧
    (∀ k', k' ≠ k → kvGet (setState s k v) k' = kvGet s k') := by
  obtain ⟨hwf1, hself, hother, _⟩ := setPre_spec s k v hwf
  by_cases hth : COMPACTION_THRESHOLD ≤ (setPre s k v).uncompactionSize
  · obtain ⟨s', hcomp, hwf', hkeys', hget', _, _, _⟩ :=
      compaction_spec (setPre s k v) hwf1
    have heq : writerSet s k v = (.ok (), s') := by
      rw [writerSet, if_pos hth, hcomp]
    refine ⟨by rw [heq], ?_, ?_, ?_⟩
    · show wf (writerSet s k v).2
      rw [heq]; exact hwf'
    · show kvGet (writerSet s k v).2 k = .ok (some v)
      rw [heq]; exact (hget' k).trans hself
    · intro k' hk'
      show kvGet (writerSet s k v).2 k' = kvGet s k'
      rw [heq]; exact (hget' k').trans (hother k' hk')
  · have heq : writerSet s k v = (.ok (), setPre s k v) := by
      rw [writerSet, if_neg hth]
    refine ⟨by rw [heq], ?_, ?_, ?_⟩
    · show wf (writerSet s k v).2
      rw [heq]; exact hwf1
    · show kvGet (writerSet s k v).2 k = .ok (some v)
      rw [heq]; exact hself
    · intro k' hk'
      show kvGet (writerSet s k v).2 k' = kvGet s k'
      rw [heq]; exact hother k' hk'

theorem writerRemove_absent (s : KvState) (k : String)
    (h : alookup s.index k = none) :
    writerRemove s k = (.err .keyNotFound, s) := by
  simp [writerRemove, h]

theorem writerRemove_spec (s : KvState) (k : String) (co : CommandOffset)
    (hwf : wf s) (hc : alookup s.index k = some co) :
    (writerRemove s k).1 = .ok () ∧ wf (removeState s k) ∧
    kvGet (removeState s k) k = .ok none ∧
    alookup (removeState s k).index k = none ∧
    (∀ k', k' ≠ k → kvGet (removeState s k) k' = kvGet s k') := by
  obtain ⟨hwf1, hself, hother, hnone⟩ := removePre_spec s k co hwf hc
  have hsome : (alookup s.index k).isNone = false := by rw [hc]; rfl
  by_cases hth : COMPACTION_THRESHOLD ≤ (removePre s k).uncompactionSize
  · obtain ⟨s', hcomp, hwf', hkeys', hget', _, _, _⟩ :=
      compaction_spec (removePre s k) hwf1
    have heq : writerRemove s k = (.ok (), s') := by
      rw [writerRemove, hsome]
      simp only [Bool.false_eq_true, if_false]
      rw [if_pos hth, hcomp]
    have hnone' : alookup s'.index k = none := by
      refine alookup_eq_none.2 fun hm => ?_
      rw [hkeys'] at hm
      exact alookup_eq_none.1 hnone hm
    refine ⟨by rw [heq], ?_, ?_, ?_, ?_⟩
    · show wf (writerRemove s k).2
      rw [heq]; exact hwf'
    · show kvGet (writerRemove s k).2 k = .ok none
      rw [heq]
      exact kvGetI_none _ _ _ hnone'
    · show alookup (writerRemove s k).2.index k = none
      rw [heq]; exact hnone'
    · intro k' hk'
      show kvGet (writerRemove s k).2 k' = kvGet s k'
      rw [heq]; exact (hget' k').trans (hother k' hk')
  · have heq : writerRemove s k = (.ok (), removePre s k) := by
      rw [writerRemove, hsome]
      simp only [Bool.false_eq_true, if_false]
      rw [if_neg hth]
    refine ⟨by rw [heq], ?_, ?_, ?_, ?_⟩
    · show wf (writerRemove s k).2
      rw [heq]; exact hwf1
    · show kvGet (writerRemove s k).2 k = .ok none
      rw [heq]; exact hself
    · show alookup (writerRemove s k).2.index k = none
      rw [heq]; exact hnone
    · intro k' hk'
      show kvGet (writerRemove s k).2 k' = kvGet s k'
      rw [heq]; exact hother k' hk'

/-! ## Sequences of writer operations -/

theorem stepOp_preserve (s : KvState) (op : KOp) (hwf : wf s) :
    wf (stepOp s op) ∧
    (∀ k, opKey op ≠ k → kvGet (stepOp s op) k = kvGet s k) := by
  cases op with
  | setOp k' v' =>
    obtain ⟨_, _, _, hother⟩ := writerSet_spec s k' v' hwf
    exact ⟨(writerSet_spec s k' v' hwf).2.1,
      fun k hk => hother k (Ne.symm hk)⟩
  | rmOp k' =>
    rcases hc : alookup s.index k' with _ | co
    · have heq := writerRemove_absent s k' hc
      have hst : stepOp s (.rmOp k') = s := by
        show (writerRemove s k').2 = s
        rw [heq]
      rw [hst]
      exact ⟨hwf, fun _ _ => rfl⟩
    · obtain ⟨_, hwf', _, _, hother⟩ := writerRemove_spec s k' co hwf hc
      exact ⟨hwf', fun k hk => hother k (Ne.symm hk)⟩

theorem runOps_preserve (s : KvState) (ops : List KOp) (k : String)
    (hwf : wf s) (hops : ∀ op ∈ ops, opKey op ≠ k) :
    wf (runOps s ops) ∧ kvGet (runOps s ops) k = kvGet s k := by
  induction ops generalizing s with
  | nil => exact ⟨hwf, rfl⟩
  | cons op ops ih =>
    obtain ⟨hwf1, hget1⟩ := stepOp_preserve s op hwf
    obtain ⟨hwf2, hget2⟩ := ih (stepOp s op) hwf1
      (fun o ho => hops o (List.mem_cons_of_mem _ ho))
    exact ⟨hwf2, hget2.trans (hget1 k (hops op (List.mem_cons_self _ _)))⟩

/-! ## Replay semantics of recovery -/

theorem lastValue_snoc (hist : List Command) (c : Command) (k : String) :
    lastValue (hist ++ [c]) k = lvStep k (lastValue hist k) c := by
  simp [lastValue, List.foldl_append]

theorem mem_insSortedNat (g a : Nat) (l : List Nat)
    (h : a ∈ insSortedNat g l) : a = g ∨ a ∈ l := by
  induction l with
  | nil => simpa [insSortedNat] using h
  | cons x l ih =>
    by_cases hx : g ≤ x
    · simp only [insSortedNat, if_pos hx] at h
      rcases List.mem_cons.1 h with h | h
      · exact Or.inl h
      · exact Or.inr h
    · simp only [insSortedNat, if_neg hx] at h
      rcases List.mem_cons.1 h with h | h
      · exact Or.inr (h ▸ List.mem_cons_self _ _)
      · rcases ih h with h | h
        · exact Or.inl h
        · exact Or.inr (List.mem_cons_of_mem _ h)

theorem mem_sortNat (l : List Nat) (a : Nat) (h : a ∈ sortNat l) : a ∈ l := by
  induction l generalizing a with
  | nil => simpa [sortNat] using h
  | cons x l ih =>
    rw [sortNat] at h
    rcases mem_insSortedNat x a (sortNat l) h with h | h
    · exact h ▸ List.mem_cons_self _ _
    · exact List.mem_cons_of_mem _ (ih a h)

theorem mem_lt_maxGenPlus (l : List Nat) (g : Nat) (h : g ∈ l) :
    g < maxGenPlus l := by
  induction l with
  | nil => simp at h
  | cons x l ih =>
    rw [maxGenPlus, List.foldr_cons]
    rcases List.mem_cons.1 h with h | h
    · subst h; exact lt_of_lt_of_le (Nat.lt_succ_self g) (le_max_left _ _)
    · exact lt_of_lt_of_le (ih h) (le_max_right _ _)

theorem loadCmds_inv (dir : List (Nat × List Command)) (g : Nat)
    (f : List Command) (hg : alookup dir g = some f) :
    ∀ (cmds pre : List Command) (idx : List (String × CommandOffset))
      (hist : List Command), f = pre ++ cmds → LInv dir idx hist →
    (loadCmds g cmds (fileLen pre) idx).1 = fileLen f ∧
    LInv dir (loadCmds g cmds (fileLen pre) idx).2 (hist ++ cmds) := by
  intro cmds
  induction cmds with
  | nil =>
    intro pre idx hist hf hinv
    refine ⟨?_, by simpa using hinv⟩
    rw [hf]
    simp [loadCmds]
  | cons c rest ih =>
    intro pre idx hist hf hinv
    obtain ⟨hNd, hGet, hEnt⟩ := hinv
    have hlen : fileLen pre + encLen c = fileLen (pre ++ [c]) := by
      rw [fileLen_append, fileLen_cons, fileLen_nil]
      omega
    have hf' : f = (pre ++ [c]) ++ rest := by
      rw [hf, List.append_assoc]; rfl
    have hdec : decodeAt f (fileLen pre) = .found c := by
      rw [hf]; exact decodeAt_boundary pre c rest
    cases c with
    | set k v =>
      have hEok : entryOk dir k ⟨g, fileLen pre⟩ = true :=
        entryOk_intro dir k v _ f hg hdec
      have hinv1 : LInv dir (ainsert idx k ⟨g, fileLen pre⟩)
          (hist ++ [.set k v]) := by
        refine ⟨nodup_akeys_ainsert idx k _ hNd, ?_, ?_⟩
        · intro k'
          by_cases hk' : k' = k
          · subst hk'
            have hl := alookup_ainsert_self idx k'
              (⟨g, fileLen pre⟩ : CommandOffset)
            have hrg : readerGet dir ⟨g, fileLen pre⟩ = .ok v := by
              simp [readerGet, hg, hdec]
            simp [kvGetI, hl, hrg, lastValue_snoc, lvStep]
          · have hl := alookup_ainsert_ne idx k k'
              (⟨g, fileLen pre⟩ : CommandOffset) hk'
            have hne : ¬ k = k' := fun hh => hk' hh.symm
            rw [lastValue_snoc]
            simp only [lvStep, if_neg hne]
            rw [kvGetI_lookup_congr dir _ idx k' hl]
            exact hGet k'
        · intro p hp
          by_cases hpk : p.1 = k
          · rw [mem_ainsert_key_eq hNd hp hpk]
            exact hEok
          · rcases mem_ainsert idx k _ p hp with h | h
            · exact absurd (by rw [h]) hpk
            · exact hEnt p h
      have hstep : loadCmds g (.set k v :: rest) (fileLen pre) idx =
          loadCmds g rest (fileLen pre + encLen (.set k v))
            (ainsert idx k ⟨g, fileLen pre⟩) := rfl
      rw [hstep, hlen]
      have := ih (pre ++ [.set k v]) _ _ hf' hinv1
      rw [List.append_assoc] at this
      simpa using this
    | remove k =>
      have hinv1 : LInv dir (aremove idx k) (hist ++ [.remove k]) := by
        refine ⟨nodup_akeys_aremove idx k hNd, ?_, ?_⟩
        · intro k'
          by_cases hk' : k' = k
          · subst hk'
            rw [kvGetI_none _ _ _ (alookup_aremove_self idx k' hNd)]
            rw [lastValue_snoc]
            simp [lvStep]
          · have hl := alookup_aremove_ne idx k k' hk'
            have hne : ¬ k = k' := fun hh => hk' hh.symm
            rw [lastValue_snoc]
            simp only [lvStep, if_neg hne]
            rw [kvGetI_lookup_congr dir _ idx k' hl]
            exact hGet k'
        · intro p hp
          exact hEnt p (mem_aremove idx k p hp)
      have hstep : loadCmds g (.remove k :: rest) (fileLen pre) idx =
          loadCmds g rest (fileLen pre + encLen (.remove k))
            (aremove idx k) := rfl
      rw [hstep, hlen]
      have := ih (pre ++ [.remove k]) _ _ hf' hinv1
      rw [List.append_assoc] at this
      simpa using this

theorem histAsc_def (dir : List (Nat × List Command)) :
    histAsc dir = histOf dir (sortNat (akeys dir)) := rfl

theorem loadGens_inv (dir : List (Nat × List Command)) :
    ∀ (gens : List Nat) (idx : List (String × CommandOffset))
      (hist : List Command) (un : Nat),
    (∀ g ∈ gens, g ∈ akeys dir) → LInv dir idx hist →
    LInv dir (loadGens dir gens idx un).1 (hist ++ histOf dir gens) := by
  intro gens
  induction gens with
  | nil =>
    intro idx hist un _ hinv
    simpa [histOf] using hinv
  | cons g gens ih =>
    intro idx hist un hall hinv
    have hg : g ∈ akeys dir := hall g (List.mem_cons_self _ _)
    rcases hf : alookup dir g with _ | f
    · exact absurd hg (alookup_eq_none.1 hf)
    have hload := loadCmds_inv dir g f hf f [] idx hist (by simp) hinv
    have hstep : loadGens dir (g :: gens) idx un =
        loadGens dir gens (loadCmds g f 0 idx).2
          (un + (loadCmds g f 0 idx).1) := by
      simp [loadGens, hf]
    rw [hstep]
    have hrec := ih (loadCmds g f 0 idx).2 (hist ++ f)
      (un + (loadCmds g f 0 idx).1)
      (fun g' h' => hall g' (List.mem_cons_of_mem _ h')) hload.2
    have hh : hist ++ histOf dir (g :: gens) =
        (hist ++ f) ++ histOf dir gens := by
      simp [histOf, hf, List.append_assoc]
    rw [hh]
    exact hrec

/-- `KvStore::open` yields a well-formed state whose `get` reflects the
last-write-wins replay of the whole directory in ascending generation
order. -/
theorem openStore_spec (dir : List (Nat × List Command))
    (hnd : (akeys dir).Nodup) :
    wf (openStore dir) ∧
    (∀ k, kvGet (openStore dir) k = .ok (lastValue (histAsc dir) k)) := by
  have hbase : LInv dir [] [] :=
    ⟨List.nodup_nil, fun k => by simp [kvGetI, alookup, lastValue],
      fun p hp => absurd hp (List.not_mem_nil p)⟩
  have hinv := loadGens_inv dir (sortNat (akeys dir)) [] [] 0
    (fun g h => mem_sortNat _ g h) hbase
  rw [List.nil_append, ← histAsc_def] at hinv
  obtain ⟨hNd, hGet, hEnt⟩ := hinv
  set gw := maxGenPlus (akeys dir) with hgw
  set idxF := (loadGens dir (sortNat (akeys dir)) [] 0).1 with hidxF
  have hfresh : alookup dir gw = none :=
    alookup_eq_none.2 (fun hm => by
      have := mem_lt_maxGenPlus _ _ hm; omega)
  have hopen : openStore dir = KvState.mk (createFile dir gw) idxF ⟨gw, 0⟩
      (loadGens dir (sortNat (akeys dir)) [] 0).2 := rfl
  have hgen_le : ∀ p ∈ idxF, p.2.generation ≤ gw := by
    intro p hp
    obtain ⟨f, v, hfl, _, _⟩ := readerGet_of_entryOk dir p.1 p.2 (hEnt p hp)
    exact le_of_lt (mem_lt_maxGenPlus _ _ (mem_akeys.2 ⟨f, alookup_mem hfl⟩))
  constructor
  · rw [hopen]
    refine ⟨nodup_akeys_createFile dir gw hnd, hNd, ?_, ?_, ?_⟩
    · intro p hp
      rcases mem_createFile dir gw p hp with h | h
      · exact le_of_lt (mem_lt_maxGenPlus _ _ (mem_akeys.2 ⟨p.2, by
          rcases p with ⟨a, b⟩; exact h⟩))
      · rw [h]
    · show (alookup (createFile dir gw) gw).map fileLen = some 0
      rw [lookup_createFile_self, hfresh]
      rfl
    · intro p hp
      exact ⟨hgen_le p hp, entryOk_createFile dir gw p.1 p.2 (hEnt p hp)⟩
  · intro k
    have hshow : kvGet (openStore dir) k = kvGetI (createFile dir gw) idxF k := by
      rw [hopen]; rfl
    rw [hshow]
    rcases hc : alookup idxF k with _ | co
    · rw [kvGetI_none _ _ _ hc]
      exact (kvGetI_none dir idxF k hc).symm.trans (hGet k)
    · obtain ⟨f, v, hfl, hdec, hr⟩ :=
        readerGet_of_entryOk dir k co (hEnt (k, co) (alookup_mem hc))
      have h1 : kvGetI dir idxF k = .ok (some v) := by
        simp [kvGetI, hc, hr]
      have h2 : kvGetI (createFile dir gw) idxF k = .ok (some v) := by
        simp [kvGetI, hc, readerGet_createFile dir gw co v hr]
      rw [h2]
      exact h1.symm.trans (hGet k)

/-! ## Thread-pool lemmas -/

theorem workersAfterExit_panic (w : Nat) (h : 1 ≤ w) :
    workersAfterExit true w = w := by
  show w - 1 + 1 = w
  omega

theorem poolStep_workers (p : Nat → Bool) (s : PoolState) (e : PoolEvent)
    (h : 1 ≤ s.workers) : (poolStep p s e).workers = s.workers := by
  cases e with
  | spawnJob j => rfl
  | runStep =>
    rcases hq : s.queue with _ | ⟨j, rest⟩
    · simp [poolStep, hq]
    · have h0 : ¬ s.workers = 0 := by omega
      simp only [poolStep, hq, if_neg h0]
      by_cases hp : p j
      · simp [hp, workersAfterExit_panic s.workers h]
      · simp [hp]

theorem poolRun_workers (p : Nat → Bool) (evs : List PoolEvent) :
    ∀ s : PoolState, 1 ≤ s.workers → (poolRun p s evs).workers = s.workers := by
  induction evs with
  | nil => intro s _; rfl
  | cons e evs ih =>
    intro s h
    have h1 := poolStep_workers p s e h
    have h2 := ih (poolStep p s e) (by rw [h1]; exact h)
    exact h2.trans h1

theorem poolRun_done_queue (p : Nat → Bool) (evs : List PoolEvent) :
    ∀ s : PoolState, 1 ≤ s.workers →
    (poolRun p s evs).done ++ (poolRun p s evs).queue =
      s.done ++ s.queue ++ spawnedJobs evs := by
  induction evs with
  | nil => intro s _; simp [poolRun, spawnedJobs]
  | cons e evs ih =>
    intro s h
    have h1 := poolStep_workers p s e h
    have hrec := ih (poolStep p s e) (by rw [h1]; exact h)
    have hjoin : (poolStep p s e).done ++ (poolStep p s e).queue ++
        spawnedJobs evs = s.done ++ s.queue ++ spawnedJobs (e :: evs) := by
      cases e with
      | spawnJob j => simp [poolStep, spawnedJobs]
      | runStep =>
        rcases hq : s.queue with _ | ⟨j, rest⟩
        · simp [poolStep, hq, spawnedJobs]
        · have h0 : ¬ s.workers = 0 := by omega
          simp [poolStep, hq, if_neg h0, spawnedJobs]
    exact hrec.trans hjoin

theorem poolRun_drain (p : Nat → Bool) :
    ∀ (q : List Nat) (s : PoolState), s.queue = q → 1 ≤ s.workers →
    (poolRun p s (List.replicate q.length .runStep)).queue = [] ∧
    (poolRun p s (List.replicate q.length .runStep)).done = s.done ++ q := by
  intro q
  induction q with
  | nil =>
    intro s hq _
    refine ⟨hq, ?_⟩
    show s.done = s.done ++ []
    simp
  | cons j rest ih =>
    intro s hq h
    have h0 : ¬ s.workers = 0 := by omega
    have hstep : poolStep p s .runStep =
        ⟨rest, s.done ++ [j],
         if p j then workersAfterExit true s.workers else s.workers⟩ := by
      simp only [poolStep, hq, if_neg h0]
    have hw : (poolStep p s .runStep).workers = s.workers :=
      poolStep_workers p s _ h
    have hrun : poolRun p s (List.replicate (j :: rest).length .runStep) =
        poolRun p (poolStep p s .runStep) (List.replicate rest.length .runStep)
        := by
      rw [List.length_cons, List.replicate_succ]
      rfl
    obtain ⟨hq', hd'⟩ := ih (poolStep p s .runStep) (by rw [hstep])
      (by rw [hw]; exact h)
    rw [hrun, hq', hd', hstep]
    exact ⟨rfl, by simp⟩

/-! ## The claims -/

/-- C1: for every well-formed store, `set(k, v)` succeeds and, after any
further `set`/`remove` operations that do not touch `k` (which may
trigger compaction), `get(k)` returns `Ok(Some(v))`; and after
`set(k, v1); set(k, v2)` the latest `set` wins: `get(k) = Ok(Some(v2))`. -/
theorem c1_set_round_trip (s : KvState) (k v v1 v2 : String)
    (ops : List KOp) (hwf : wf s) (hops : ∀ op ∈ ops, opKey op ≠ k) :
    (writerSet s k v).1 = .ok () ∧
    kvGet (runOps (setState s k v) ops) k = .ok (some v) ∧
    kvGet (setState (setState s k v1) k v2) k = .ok (some v2) := by
  obtain ⟨hok, hwf1, hself, _⟩ := writerSet_spec s k v hwf
  obtain ⟨_, hget⟩ := runOps_preserve (setState s k v) ops k hwf1 hops
  refine ⟨hok, hget.trans hself, ?_⟩
  obtain ⟨_, hwfA, _, _⟩ := writerSet_spec s k v1 hwf
  exact (writerSet_spec (setState s k v1) k v2 hwfA).2.2.1

theorem c1_set_round_trip_witness :
    kvGet (runOps (setState (openStore []) "a" "x") [KOp.setOp "b" "y"]) "a"
      = .ok (some "x") ∧
    kvGet (setState (setState (openStore []) "a" "p") "a" "q") "a"
      = .ok (some "q") := by
  have h := c1_set_round_trip (openStore []) "a" "x" "p" "q"
    [KOp.setOp "b" "y"] (by decide) (by decide)
  exact ⟨h.2.1, h.2.2⟩

/-- C2: `remove(k)` on a key absent from the index fails with
`KeyNotFound` leaving the whole state (log, index, counter) unchanged;
after `set(k, v)` a `remove(k)` succeeds, `get(k)` then returns
`Ok(None)`, and a second `remove(k)` fails with `KeyNotFound` without
changing the state. -/
theorem c2_remove_semantics (s : KvState) (k v : String) (hwf : wf s)
    (habs : alookup s.index k = none) :
    writerRemove s k = (.err .keyNotFound, s) ∧
    (writerRemove (setState s k v) k).1 = .ok () ∧
    kvGet (removeState (setState s k v) k) k = .ok none ∧
    writerRemove (removeState (setState s k v) k) k =
      (.err .keyNotFound, removeState (setState s k v) k) := by
  obtain ⟨_, hwf1, hself, _⟩ := writerSet_spec s k v hwf
  rcases hc : alookup (setState s k v).index k with _ | co
  · exfalso
    have hn := kvGetI_none (setState s k v).files _ k hc
    have hself' : kvGetI (setState s k v).files (setState s k v).index k =
        .ok (some v) := hself
    simpa using hn.symm.trans hself'
  · obtain ⟨hok2, _, hnone2, hlook2, _⟩ :=
      writerRemove_spec (setState s k v) k co hwf1 hc
    exact ⟨writerRemove_absent s k habs, hok2, hnone2,
      writerRemove_absent _ k hlook2⟩

theorem c2_remove_semantics_witness :
    writerRemove (openStore []) "a" = (.err .keyNotFound, openStore []) ∧
    kvGet (removeState (setState (openStore []) "a" "x") "a") "a"
      = .ok none := by
  have h := c2_remove_semantics (openStore []) "a" "x" (by decide) (by decide)
  exact ⟨h.1, h.2.2.1⟩

/-- C3: opening a directory of generation files replays the generations
in ascending numeric order with `Set` inserting (at the record-start
offset) and `Remove` deleting, yielding a well-formed store in which
`get` of every key equals the last-write-wins value of the whole
replayed history: surviving keys return their last-written value,
removed keys return `Ok(None)`. -/
theorem c3_open_replay (dir : List (Nat × List Command))
    (hnd : (akeys dir).Nodup) (k : String) :
    wf (openStore dir) ∧
    kvGet (openStore dir) k = .ok (lastValue (histAsc dir) k) :=
  ⟨(openStore_spec dir hnd).1, (openStore_spec dir hnd).2 k⟩

theorem c3_open_replay_witness :
    kvGet (openStore [(0, [Command.set "a" "x", Command.remove "a",
      Command.set "b" "y"]), (1, [Command.set "a" "z"])]) "a"
      = .ok (some "z") :=
  (c3_open_replay [(0, [Command.set "a" "x", Command.remove "a",
    Command.set "b" "y"]), (1, [Command.set "a" "z"])] (by decide) "a").2.trans
    (by decide)

/-- C4: from a well-formed state with writer generation `gw`, compaction
succeeds, leaves the mapping observed by `get` unchanged, keeps exactly
the same key set while moving every index entry to generation
`gc = gw + 1`, and afterwards the writer cursor is `(gc + 1, 0)` with a
zeroed uncompacted-bytes counter. -/
theorem c4_compaction_effect (s : KvState) (hwf : wf s) :
    (compaction s).1 = .ok () ∧
    (∀ k, kvGet (compaction s).2 k = kvGet s k) ∧
    akeys (compaction s).2.index = akeys s.index ∧
    (∀ p ∈ (compaction s).2.index,
      p.2.generation = s.writerOffset.generation + 1) ∧
    (compaction s).2.writerOffset = ⟨s.writerOffset.generation + 2, 0⟩ ∧
    (compaction s).2.uncompactionSize = 0 := by
  obtain ⟨s', heq, _, hkeys, hget, hgens, hwo, hun⟩ := compaction_spec s hwf
  rw [heq]
  exact ⟨rfl, hget, hkeys, hgens, hwo, hun⟩

theorem c4_compaction_effect_witness :
    (compaction (setState (openStore []) "a" "x")).1 = .ok () ∧
    kvGet (compaction (setState (openStore []) "a" "x")).2 "a"
      = kvGet (setState (openStore []) "a" "x") "a" ∧
    (compaction (setState (openStore []) "a" "x")).2.uncompactionSize = 0 := by
  have h := c4_compaction_effect (setState (openStore []) "a" "x") (by decide)
  exact ⟨h.1, h.2.1 "a", h.2.2.2.2.2⟩

/-- C5: the index-soundness invariant — every entry `k ↦ (g, o)` has an
existing generation-`g` file whose record at byte `o` decodes to a `Set`
with key `k` (`entryOk`) — is preserved (as part of full
well-formedness) by `set`, `remove`, compaction, and established by
`open`; moreover, at every intermediate point of compaction (after each
entry rewrite, and after each file deletion of the deletion phase, which
starts only after all entries were updated) every index entry's
generation still has an existing file. -/
theorem c5_invariant_preserved :
    (∀ (s : KvState) (k v : String), wf s →
      wf (setState s k v) ∧
      ∀ p ∈ (setState s k v).index,
        entryOk (setState s k v).files p.1 p.2 = true) ∧
    (∀ (s : KvState) (k : String), wf s →
      wf (removeState s k) ∧
      ∀ p ∈ (removeState s k).index,
        entryOk (removeState s k).files p.1 p.2 = true) ∧
    (∀ (s : KvState), wf s →
      wf (compaction s).2 ∧
      ∀ p ∈ (compaction s).2.index,
        entryOk (compaction s).2.files p.1 p.2 = true) ∧
    (∀ (dir : List (Nat × List Command)), (akeys dir).Nodup →
      wf (openStore dir) ∧
      ∀ p ∈ (openStore dir).index,
        entryOk (openStore dir).files p.1 p.2 = true) ∧
    (∀ (s : KvState), wf s → ∀ (n : Nat),
      ∀ p ∈ (compactLoop (s.writerOffset.generation + 1) (s.index.take n)
          ⟨createFile s.files (s.writerOffset.generation + 1), s.index, 0,
            []⟩).2.index,
        (alookup (compactLoop (s.writerOffset.generation + 1) (s.index.take n)
          ⟨createFile s.files (s.writerOffset.generation + 1), s.index, 0,
            []⟩).2.files p.2.generation).isSome = true) ∧
    (∀ (s : KvState), wf s → ∀ (m : Nat),
      ∀ p ∈ (compactLoop (s.writerOffset.generation + 1) s.index
          ⟨createFile s.files (s.writerOffset.generation + 1), s.index, 0,
            []⟩).2.index,
        (alookup (delLoop
          (((compactLoop (s.writerOffset.generation + 1) s.index
            ⟨createFile s.files (s.writerOffset.generation + 1), s.index, 0,
              []⟩).2.toDelete).take m)
          (compactLoop (s.writerOffset.generation + 1) s.index
            ⟨createFile s.files (s.writerOffset.generation + 1), s.index, 0,
              []⟩).2.files).2 p.2.generation).isSome = true) := by
  refine ⟨?_, ?_, ?_, ?_, ?_, ?_⟩
  · intro s k v hwf
    have hwf' := (writerSet_spec s k v hwf).2.1
    exact ⟨hwf', fun p hp => (hwf'.2.2.2.2 p hp).2⟩
  · intro s k hwf
    rcases hc : alookup s.index k with _ | co
    · have hst : removeState s k = s := by
        show (writerRemove s k).2 = s
        rw [writerRemove_absent s k hc]
      rw [hst]
      exact ⟨hwf, fun p hp => (hwf.2.2.2.2 p hp).2⟩
    · have hwf' := (writerRemove_spec s k co hwf hc).2.1
      exact ⟨hwf', fun p hp => (hwf'.2.2.2.2 p hp).2⟩
  · intro s hwf
    obtain ⟨s', heq, hwf', _, _, _, _, _⟩ := compaction_spec s hwf
    rw [heq]
    exact ⟨hwf', fun p hp => (hwf'.2.2.2.2 p hp).2⟩
  · intro dir hnd
    have hwf' := (openStore_spec dir hnd).1
    exact ⟨hwf', fun p hp => (hwf'.2.2.2.2 p hp).2⟩
  · intro s hwf n
    have hsplit : CInv s ⟨createFile s.files (s.writerOffset.generation + 1),
        s.index, 0, []⟩ (s.index.take n ++ s.index.drop n) := by
      rw [List.take_append_drop]
      exact CInv_init s hwf
    obtain ⟨acc', hloop, hfin⟩ := compactLoop_inv s hwf (s.index.take n)
      (s.index.drop n) _ hsplit
    rw [hloop]
    obtain ⟨⟨gcf, hgcf, _⟩, hOld, _, _, hEntries, _, _, _, _, _⟩ := hfin
    intro p hp
    rcases hEntries p hp with ⟨_, horig⟩ | ⟨_, hok⟩
    · obtain ⟨hgen, hEok⟩ := hwf.2.2.2.2 _ (alookup_mem horig)
      have hgen' : p.2.generation ≤ s.writerOffset.generation := hgen
      obtain ⟨f, _, hf, _, _⟩ := readerGet_of_entryOk s.files p.1 p.2 hEok
      have hne : p.2.generation ≠ s.writerOffset.generation + 1 := by omega
      rw [hOld _ hne, hf]
      rfl
    · obtain ⟨f, _, hf, _, _⟩ := readerGet_of_entryOk acc'.files p.1 p.2 hok
      rw [hf]
      rfl
  · intro s hwf m
    have hsplit : CInv s ⟨createFile s.files (s.writerOffset.generation + 1),
        s.index, 0, []⟩ (s.index ++ []) := by
      simpa using CInv_init s hwf
    obtain ⟨acc', hloop, hfin⟩ := compactLoop_inv s hwf s.index [] _ hsplit
    rw [hloop]
    obtain ⟨⟨gcf, hgcf, _⟩, hOld, _, _, hEntries, _, hTd, hTdNd, hFNd, _⟩ := hfin
    have hAll : ∀ p ∈ acc'.index,
        p.2.generation = s.writerOffset.generation + 1 ∧
        entryOk acc'.files p.1 p.2 = true := by
      intro p hp
      rcases hEntries p hp with ⟨hmem, _⟩ | h
      · simp [akeys] at hmem
      · exact h
    have htake : ∀ g ∈ acc'.toDelete.take m, g ∈ akeys acc'.files := by
      intro g hg
      have hgm : g ∈ acc'.toDelete := (List.take_sublist m _).subset hg
      obtain ⟨hle, hsome⟩ := hTd g hgm
      have hne : g ≠ s.writerOffset.generation + 1 := by omega
      rw [← hOld g hne] at hsome
      exact alookup_isSome.1 hsome
    obtain ⟨files', hdel, hlook', _, _⟩ := delLoop_spec (acc'.toDelete.take m)
      acc'.files (hTdNd.sublist (List.take_sublist m _)) htake hFNd
    rw [hdel]
    intro p hp
    have hgc : (s.writerOffset.generation + 1) ∉ acc'.toDelete.take m := by
      intro hmem
      have := (hTd _ ((List.take_sublist m _).subset hmem)).1
      omega
    rw [(hAll p hp).1, hlook' _ hgc, hgcf]
    rfl

theorem c5_invariant_preserved_witness :
    wf (setState (openStore []) "a" "b") :=
  (c5_invariant_preserved.1 (openStore []) "a" "b" (by decide)).1

/-- C6: `COMPACTION_THRESHOLD` is 4 MiB; every `set`, and every
successful `remove` (one whose key is present in the index), first adds
exactly the encoded byte length of its appended record to the
uncompacted-bytes counter, and compaction runs during the operation if
and only if the counter after that addition is at least the threshold —
observable as the counter resetting to 0 and the writer generation
jumping by 2 (otherwise both keep their no-compaction values). -/
theorem c6_counter_threshold (s : KvState) (k v : String) (hwf : wf s) :
    COMPACTION_THRESHOLD = 4 * 1024 * 1024 ∧
    (setPre s k v).uncompactionSize =
      s.uncompactionSize + encLen (.set k v) ∧
    ((setState s k v).uncompactionSize =
      if COMPACTION_THRESHOLD ≤ s.uncompactionSize + encLen (.set k v)
      then 0 else s.uncompactionSize + encLen (.set k v)) ∧
    ((setState s k v).writerOffset.generation =
      if COMPACTION_THRESHOLD ≤ s.uncompactionSize + encLen (.set k v)
      then s.writerOffset.generation + 2 else s.writerOffset.generation) ∧
    (removePre s k).uncompactionSize =
      s.uncompactionSize + encLen (.remove k) ∧
    ((alookup s.index k).isSome = true →
      (removeState s k).uncompactionSize =
        if COMPACTION_THRESHOLD ≤ s.uncompactionSize + encLen (.remove k)
        then 0 else s.uncompactionSize + encLen (.remove k)) ∧
    ((alookup s.index k).isSome = true →
      (removeState s k).writerOffset.generation =
        if COMPACTION_THRESHOLD ≤ s.uncompactionSize + encLen (.remove k)
        then s.writerOffset.generation + 2 else s.writerOffset.generation)
    := by
  refine ⟨rfl, rfl, ?_, ?_, rfl, ?_, ?_⟩
  · by_cases hth : COMPACTION_THRESHOLD ≤ s.uncompactionSize +
        encLen (.set k v)
    · obtain ⟨s', heq, _, _, _, _, _, hun⟩ :=
        compaction_spec (setPre s k v) (setPre_spec s k v hwf).1
      have heqs : setState s k v = s' := by
        show (writerSet s k v).2 = s'
        rw [writerSet, if_pos
          (show COMPACTION_THRESHOLD ≤ (setPre s k v).uncompactionSize
            from hth), heq]
      rw [heqs, if_pos hth, hun]
    · have heqs : setState s k v = setPre s k v := by
        show (writerSet s k v).2 = setPre s k v
        rw [writerSet, if_neg
          (show ¬ COMPACTION_THRESHOLD ≤ (setPre s k v).uncompactionSize
            from hth)]
      rw [heqs, if_neg hth]
      rfl
  · by_cases hth : COMPACTION_THRESHOLD ≤ s.uncompactionSize +
        encLen (.set k v)
    · obtain ⟨s', heq, _, _, _, _, hwo, _⟩ :=
        compaction_spec (setPre s k v) (setPre_spec s k v hwf).1
      have heqs : setState s k v = s' := by
        show (writerSet s k v).2 = s'
        rw [writerSet, if_pos
          (show COMPACTION_THRESHOLD ≤ (setPre s k v).uncompactionSize
            from hth), heq]
      rw [heqs, if_pos hth, hwo]
      rfl
    · have heqs : setState s k v = setPre s k v := by
        show (writerSet s k v).2 = setPre s k v
        rw [writerSet, if_neg
          (show ¬ COMPACTION_THRESHOLD ≤ (setPre s k v).uncompactionSize
            from hth)]
      rw [heqs, if_neg hth]
      rfl
  · intro hks
    rcases hc : alookup s.index k with _ | co
    · rw [hc] at hks; simp at hks
    have hsome : (alookup s.index k).isNone = false := by rw [hc]; rfl
    by_cases hth : COMPACTION_THRESHOLD ≤ s.uncompactionSize +
        encLen (.remove k)
    · obtain ⟨s', heq, _, _, _, _, _, hun⟩ :=
        compaction_spec (removePre s k) (removePre_spec s k co hwf hc).1
      have heqs : removeState s k = s' := by
        show (writerRemove s k).2 = s'
        rw [writerRemove, hsome]
        simp only [Bool.false_eq_true, if_false]
        rw [if_pos
          (show COMPACTION_THRESHOLD ≤ (removePre s k).uncompactionSize
            from hth), heq]
      rw [heqs, if_pos hth, hun]
    · have heqs : removeState s k = removePre s k := by
        show (writerRemove s k).2 = removePre s k
        rw [writerRemove, hsome]
        simp only [Bool.false_eq_true, if_false]
        rw [if_neg
          (show ¬ COMPACTION_THRESHOLD ≤ (removePre s k).uncompactionSize
            from hth)]
      rw [heqs, if_neg hth]
      rfl
  · intro hks
    rcases hc : alookup s.index k with _ | co
    · rw [hc] at hks; simp at hks
    have hsome : (alookup s.index k).isNone = false := by rw [hc]; rfl
    by_cases hth : COMPACTION_THRESHOLD ≤ s.uncompactionSize +
        encLen (.remove k)
    · obtain ⟨s', heq, _, _, _, _, hwo, _⟩ :=
        compaction_spec (removePre s k) (removePre_spec s k co hwf hc).1
      have heqs : removeState s k = s' := by
        show (writerRemove s k).2 = s'
        rw [writerRemove, hsome]
        simp only [Bool.false_eq_true, if_false]
        rw [if_pos
          (show COMPACTION_THRESHOLD ≤ (removePre s k).uncompactionSize
            from hth), heq]
      rw [heqs, if_pos hth, hwo]
      rfl
    · have heqs : removeState s k = removePre s k := by
        show (writerRemove s k).2 = removePre s k
        rw [writerRemove, hsome]
        simp only [Bool.false_eq_true, if_false]
        rw [if_neg
          (show ¬ COMPACTION_THRESHOLD ≤ (removePre s k).uncompactionSize
            from hth)]
      rw [heqs, if_neg hth]
      rfl

theorem c6_counter_threshold_witness :
    (setState (KvState.mk [(0, [Command.set "a" "x"])] [("a", ⟨0, 0⟩)]
      ⟨0, 31⟩ 4194300) "a" "y").uncompactionSize = 0 ∧
    (setState (openStore []) "a" "y").uncompactionSize = 0 + 31 ∧
    (removeState (KvState.mk [(0, [Command.set "a" "x"])] [("a", ⟨0, 0⟩)]
      ⟨0, 31⟩ 4194300) "a").uncompactionSize = 0 := by
  have h := c6_counter_threshold (KvState.mk [(0, [Command.set "a" "x"])]
    [("a", ⟨0, 0⟩)] ⟨0, 31⟩ 4194300) "a" "y" (by decide)
  have h0 := c6_counter_threshold (openStore []) "a" "y" (by decide)
  exact ⟨h.2.2.1.trans (by decide), h0.2.2.1.trans (by decide),
    (h.2.2.2.2.2.1 (by decide)).trans (by decide)⟩

/-- C7 (counterexample): the original claim says the reader "fails
(returns an error rather than a value)" when the decoded record is not a
`Set` or no record can be decoded; but on a state whose index entry
dereferences to a `Remove` record the reader neither returns an error
nor a value — it panics (`unreachable!`). -/
theorem c7_reader_counterexample :
    decodeAt [Command.remove "a"] 0 = .found (.remove "a") ∧
    readerGet [(0, [Command.remove "a"])] ⟨0, 0⟩ = .panicked ∧
    Outcome.isErr (readerGet [(0, [Command.remove "a"])] ⟨0, 0⟩) = false ∧
    Outcome.isOk (readerGet [(0, [Command.remove "a"])] ⟨0, 0⟩) = false := by
  decide

/-- C7 (amended): for every index entry it dereferences, the reader
opens the generation file and decodes exactly one record at the offset;
it returns an error when the file cannot be opened (`StdIo`) or the
bytes at the offset fail to decode (`SerdeJson`), but when the decoded
record is not a `Set`, or no record exists at or past that offset, it
panics via `unreachable!` instead of returning an error; a decoded `Set`
yields its value. -/
theorem c7_reader_amended (files : List (Nat × List Command))
    (co : CommandOffset) (f : List Command) (k v : String) :
    (alookup files co.generation = none → readerGet files co = .err .stdIo) ∧
    (alookup files co.generation = some f →
      decodeAt f co.offset = .badBytes →
      readerGet files co = .err .serdeJson) ∧
    (alookup files co.generation = some f →
      decodeAt f co.offset = .found (.remove k) →
      readerGet files co = .panicked) ∧
    (alookup files co.generation = some f →
      decodeAt f co.offset = .atEnd → readerGet files co = .panicked) ∧
    (alookup files co.generation = some f →
      decodeAt f co.offset = .found (.set k v) →
      readerGet files co = .ok v) :=
  ⟨fun h1 => by simp [readerGet, h1],
   fun h1 h2 => by simp [readerGet, h1, h2],
   fun h1 h2 => by simp [readerGet, h1, h2],
   fun h1 h2 => by simp [readerGet, h1, h2],
   fun h1 h2 => by simp [readerGet, h1, h2]⟩

theorem c7_reader_amended_witness :
    readerGet [(0, [Command.remove "a"])] ⟨0, 0⟩ = .panicked :=
  (c7_reader_amended [(0, [Command.remove "a"])] ⟨0, 0⟩
    [Command.remove "a"] "a" "x").2.2.1 (by decide) (by decide)

/-- C8 (counterexample): the claim says an I/O or codec error on one
connection terminates only that handler and the server continues to
serve later connections; but with a codec-failing first connection and a
healthy second one, `run_engine` stops with the error after the first
connection and emits no responses for the second, although processing
the second connection alone would succeed. -/
theorem c8_server_counterexample :
    (runEngine (openStore [])
      [[ReqItem.badBytes], [ReqItem.good (.get "a")]]).1
      = .err .serdeJson ∧
    (runEngine (openStore [])
      [[ReqItem.badBytes], [ReqItem.good (.get "a")]]).2.1 = [[]] ∧
    processConn (openStore []) [ReqItem.good (.get "a")]
      = (.ok (), [⟨none, none⟩], openStore []) := by
  decide

/-- C8 (amended): an engine-level error on a single request is reported
in that request's response and the connection continues to be served;
but an I/O or codec error in a connection's request stream makes
`process` return `Err`, which `run_engine` propagates with `?`,
terminating the whole accept loop — no later connection is served. -/
theorem c8_server_amended (s s' : KvState) (r : Request)
    (rest : List ReqItem) (e : KvsError) (conn : List ReqItem)
    (conns : List (List ReqItem)) (resps : List Response) :
    (engineStep s r = (.err e, s') →
      processConn s (.good r :: rest) =
        ((processConn s' rest).1,
         ⟨none, some (errString e)⟩ :: (processConn s' rest).2.1,
         (processConn s' rest).2.2)) ∧
    (processConn s conn = (.err e, resps, s') →
      runEngine s (conn :: conns) = (.err e, [resps], s')) := by
  constructor
  · intro h
    simp only [processConn, h]
  · intro h
    simp only [runEngine, h]

theorem c8_server_amended_witness :
    processConn (openStore []) [ReqItem.good (.rm "a")] =
      ((processConn (openStore []) []).1,
       ⟨none, some (errString .keyNotFound)⟩ ::
         (processConn (openStore []) []).2.1,
       (processConn (openStore []) []).2.2) :=
  (c8_server_amended (openStore []) (openStore []) (.rm "a") []
    .keyNotFound [] [] []).1 (by decide)

/-- C9: in the shared-queue pool with `N ≥ 1` workers, a worker exiting
due to a job panic is replaced by a freshly spawned worker on the same
queue (`workersAfterExit true w = w`), so after any sequence of spawns
and job executions — panicking or not — the worker count is still `N`,
and running the pool until quiescence executes every job that was ever
spawned, in FIFO order. -/
theorem c9_pool_resilience (p : Nat → Bool) (N : Nat)
    (evs : List PoolEvent) (hN : 1 ≤ N) :
    (∀ w, 1 ≤ w → workersAfterExit true w = w) ∧
    (poolRun p ⟨[], [], N⟩ evs).workers = N ∧
    (poolRun p (poolRun p ⟨[], [], N⟩ evs)
      (List.replicate (poolRun p ⟨[], [], N⟩ evs).queue.length
        PoolEvent.runStep)).queue = [] ∧
    (poolRun p (poolRun p ⟨[], [], N⟩ evs)
      (List.replicate (poolRun p ⟨[], [], N⟩ evs).queue.length
        PoolEvent.runStep)).done = spawnedJobs evs := by
  have h1 := poolRun_workers p evs ⟨[], [], N⟩ hN
  have h2 := poolRun_done_queue p evs ⟨[], [], N⟩ hN
  have hw1 : 1 ≤ (poolRun p ⟨[], [], N⟩ evs).workers := by
    rw [h1]; exact hN
  obtain ⟨hq, hd⟩ := poolRun_drain p (poolRun p ⟨[], [], N⟩ evs).queue
    (poolRun p ⟨[], [], N⟩ evs) rfl hw1
  refine ⟨workersAfterExit_panic, h1, hq, ?_⟩
  rw [hd]
  simpa using h2

theorem c9_pool_resilience_witness :
    (poolRun (fun j => j == 0) ⟨[], [], 2⟩
      [PoolEvent.spawnJob 0, PoolEvent.spawnJob 1, PoolEvent.runStep,
       PoolEvent.spawnJob 2]).workers = 2 ∧
    (poolRun (fun j => j == 0)
      (poolRun (fun j => j == 0) ⟨[], [], 2⟩
        [PoolEvent.spawnJob 0, PoolEvent.spawnJob 1, PoolEvent.runStep,
         PoolEvent.spawnJob 2])
      (List.replicate (poolRun (fun j => j == 0) ⟨[], [], 2⟩
        [PoolEvent.spawnJob 0, PoolEvent.spawnJob 1, PoolEvent.runStep,
         PoolEvent.spawnJob 2]).queue.length PoolEvent.runStep)).done =
      spawnedJobs [PoolEvent.spawnJob 0, PoolEvent.spawnJob 1,
        PoolEvent.runStep, PoolEvent.spawnJob 2] := by
  have h := c9_pool_resilience (fun j => j == 0) 2
    [PoolEvent.spawnJob 0, PoolEvent.spawnJob 1, PoolEvent.runStep,
     PoolEvent.spawnJob 2] (by decide)
  exact ⟨h.2.1, h.2.2.2⟩

theorem loadGensNamed_missing (dir : List (String × List Command)) :
    ∀ (gens : List Nat) (idx : List (String × CommandOffset)) (un g : Nat),
    g ∈ gens → alookup dir (commandFileName g) = none →
    loadGensNamed dir gens idx un = .err .stdIo := by
  intro gens
  induction gens with
  | nil => intro idx un g hg _; simp at hg
  | cons g0 gens ih =>
    intro idx un g hg hmiss
    rcases hf : alookup dir (commandFileName g0) with _ | f
    · simp [loadGensNamed, hf]
    · have hgmem : g ∈ gens := by
        rcases List.mem_cons.1 hg with h | h
        · subst h; rw [hmiss] at hf; cases hf
        · exact h
      simp only [loadGensNamed, hf]
      exact ih _ _ g hgmem hmiss

/-- C10 (counterexample): the original claim says a file named
`3.json.json` "is replayed as generation 3". In fact, although
`get_generations` recognizes generation 3 from that name, the replay
opens only `3.json`: with `3.json.json` as the sole file, `open` fails
with an I/O error and nothing is replayed; and with both files present,
generation 3 is replayed (twice) from `3.json` while the records of
`3.json.json` never reach the index. -/
theorem c10_counterexample :
    getGenerations ["3.json.json"] = [3] ∧
    openReplayNamed [("3.json.json", [Command.set "a" "x"])]
      = .err .stdIo ∧
    openReplayNamed [("3.json.json", [Command.set "a" "x"]),
      ("3.json", [Command.set "b" "y"])]
      = .ok ([("b", ⟨3, 0⟩)], 62) := by
  decide

/-- C10 (amended): at open, generation numbers are parsed by stripping
every trailing `".json"` occurrence, so a file named `3.json.json`
makes generation 3 recognized even though no file is named exactly
`3.json`; but the replay — like every later read — opens only
`convert_command_generation_path`'s name `<g>.json`, so the contents of
`3.json.json` are never read: whenever a recognized generation's
`<g>.json` is absent from the directory, `open` fails with an I/O error
instead of replaying anything. -/
theorem c10_open_name_mismatch (dir : List (String × List Command))
    (g : Nat) (hg : g ∈ getGenerations (akeys dir))
    (hmiss : alookup dir (commandFileName g) = none) :
    openReplayNamed dir = .err .stdIo ∧
    rustExtension "3.json.json" = some "json" ∧
    trimEndMatchesJson "3.json.json" = "3" ∧
    getGenerations ["3.json.json"] = [3] ∧
    commandFileName 3 = "3.json" ∧
    "3.json" ∉ ["3.json.json"] :=
  ⟨loadGensNamed_missing dir (getGenerations (akeys dir)) [] 0 g hg hmiss,
   by decide, by decide, by decide, by decide, by decide⟩

theorem c10_open_name_mismatch_witness :
    openReplayNamed [("3.json.json", [Command.set "a" "x"])]
      = .err .stdIo :=
  (c10_open_name_mismatch [("3.json.json", [Command.set "a" "x"])] 3
    (by decide) (by decide)).1

end Kvs
